import Mathlib

/-!
Verification of the CSV preprocessing pipeline in `solution.py`.

The model is a shallow embedding of the `preprocess` / `fix_bad_line`
functions and of the per-line NUL sanitization step.

Conventions of the embedding:
  * bytes and Unicode code points are `Nat`;
  * a Python `str` is a `List Nat` of code points;
  * a CSV record (one parsed row) is a `List (List Nat)` of field strings;
  * a file is a flat `List Nat` of bytes, split into physical lines after
    each `0x0A` byte, exactly as binary iteration of a Python file does;
  * fallible steps (`UnicodeDecodeError`, `csv.Error`) return `Option`.

Scope note: records are modelled one per physical line.  A quoted field
that would continue onto the next physical line (an embedded newline
inside quotes) is modelled as a parse failure; none of the results below
depend on such inputs.
-/

namespace CsvPipe

/-- One CSV field: a Python string as a list of Unicode code points. -/
abbrev Fld := List Nat

/-- One CSV record: `list` of field strings, as produced by `csv.reader`. -/
abbrev Row := List Fld

/-- `line.replace(b'\x00', b'')`: drop every NUL byte of a raw line. -/
def stripNul (bs : List Nat) : List Nat :=
  bs.filter (fun b => decide (b ≠ 0))

/-- UTF-8 encoding of a single code point (as `str.encode('utf-8')` does
per character). -/
def utf8EncodeCp (c : Nat) : List Nat :=
  if c < 0x80 then [c]
  else if c < 0x800 then [0xC0 + c / 64, 0x80 + c % 64]
  else if c < 0x10000 then
    [0xE0 + c / 4096, 0x80 + c / 64 % 64, 0x80 + c % 64]
  else
    [0xF0 + c / 262144, 0x80 + c / 4096 % 64, 0x80 + c / 64 % 64, 0x80 + c % 64]

/-- UTF-8 encoding of a string of code points. -/
def utf8Encode (cs : List Nat) : List Nat :=
  (cs.map utf8EncodeCp).flatten

/-- One step of strict UTF-8 decoding, as a byte automaton.  `need` is
the number of continuation bytes still expected, `acc` the value
accumulated so far, and `[lo, hi)` the allowed range for the next
continuation byte (the first continuation byte of a sequence carries the
overlong/surrogate/range restrictions of RFC 3629; later ones allow
`[0x80, 0xC0)`). -/
def utf8DecAux : List Nat → Nat → Nat → Nat → Nat → Option (List Nat)
  | [], 0, _, _, _ => some []
  | [], _ + 1, _, _, _ => none
  | b :: bs, 0, _, _, _ =>
    if b < 0x80 then (utf8DecAux bs 0 0 0 0).map (b :: ·)
    else if b < 0xC2 then none
    else if b < 0xE0 then utf8DecAux bs 1 (b - 0xC0) 0x80 0xC0
    else if b = 0xE0 then utf8DecAux bs 2 0 0xA0 0xC0
    else if b = 0xED then utf8DecAux bs 2 13 0x80 0xA0
    else if b < 0xF0 then utf8DecAux bs 2 (b - 0xE0) 0x80 0xC0
    else if b = 0xF0 then utf8DecAux bs 3 0 0x90 0xC0
    else if b = 0xF4 then utf8DecAux bs 3 4 0x80 0x90
    else if b < 0xF5 then utf8DecAux bs 3 (b - 0xF0) 0x80 0xC0
    else none
  | b :: bs, 1, acc, lo, hi =>
    if lo ≤ b ∧ b < hi then
      (utf8DecAux bs 0 0 0 0).map ((acc * 64 + (b - 0x80)) :: ·)
    else none
  | b :: bs, k + 2, acc, lo, hi =>
    if lo ≤ b ∧ b < hi then
      utf8DecAux bs (k + 1) (acc * 64 + (b - 0x80)) 0x80 0xC0
    else none

/-- Strict UTF-8 decoding, as `bytes.decode('utf-8')`: rejects overlong
forms, surrogates, values above `0x10FFFF`, truncated sequences and
stray continuation bytes.  Returns `none` exactly when Python raises
`UnicodeDecodeError`. -/
def utf8Decode (bs : List Nat) : Option (List Nat) :=
  utf8DecAux bs 0 0 0 0

/-- Split a byte stream into physical lines after each `0x0A`, keeping the
terminator, exactly like iterating a Python file opened in `'rb'` mode. -/
def splitAfter : List Nat → List (List Nat)
  | [] => []
  | b :: rest =>
    if b = 10 then [b] :: splitAfter rest
    else
      match splitAfter rest with
      | [] => [[b]]
      | l :: ls => (b :: l) :: ls

/-- Drop one trailing occurrence of `x`, if the list ends with it. -/
def dropTrailing (x : Nat) (cs : List Nat) : List Nat :=
  match cs.reverse with
  | y :: r => if y = x then r.reverse else cs
  | [] => cs

/-- Strip one trailing LF then one trailing CR: the record-terminator
handling of `csv.reader` on one physical line. -/
def stripEOL (cs : List Nat) : List Nat :=
  dropTrailing 13 (dropTrailing 10 cs)

/-- States of the `csv.reader` field automaton (default dialect,
`doublequote=True`, `strict=False`). -/
inductive PState
  | startField
  | inField
  | inQuotes
  | quoteInQuotes
deriving DecidableEq

/-- The `csv.reader` automaton over the code points of one line body
(terminator already stripped).  `cur` is the field being accumulated,
`fields` the fields already finished.  `none` models `csv.Error`
(a bare CR/LF in an unquoted context). -/
def parseRec : List Nat → PState → List Nat → List (List Nat) →
    Option (List (List Nat))
  | [], PState.startField, _, fields => some (fields ++ [[]])
  | [], PState.inField, cur, fields => some (fields ++ [cur])
  | [], PState.inQuotes, cur, fields => some (fields ++ [cur])
  | [], PState.quoteInQuotes, cur, fields => some (fields ++ [cur])
  | c :: rest, PState.startField, _, fields =>
    if c = 34 then parseRec rest PState.inQuotes [] fields
    else if c = 44 then parseRec rest PState.startField [] (fields ++ [[]])
    else if c = 13 ∨ c = 10 then none
    else parseRec rest PState.inField [c] fields
  | c :: rest, PState.inField, cur, fields =>
    if c = 44 then parseRec rest PState.startField [] (fields ++ [cur])
    else if c = 13 ∨ c = 10 then none
    else parseRec rest PState.inField (cur ++ [c]) fields
  | c :: rest, PState.inQuotes, cur, fields =>
    if c = 34 then parseRec rest PState.quoteInQuotes cur fields
    else if c = 10 then none
    else parseRec rest PState.inQuotes (cur ++ [c]) fields
  | c :: rest, PState.quoteInQuotes, cur, fields =>
    if c = 34 then parseRec rest PState.inQuotes (cur ++ [34]) fields
    else if c = 44 then parseRec rest PState.startField [] (fields ++ [cur])
    else if c = 13 ∨ c = 10 then none
    else parseRec rest PState.inField (cur ++ [c]) fields

/-- Parse one physical line into one CSV record; a blank line yields the
empty record `[]`, as `csv.reader` does. -/
def parseCSVLine (cs : List Nat) : Option Row :=
  match stripEOL cs with
  | [] => some []
  | c :: rest => parseRec (c :: rest) PState.startField [] []

/-- QUOTE_MINIMAL: a field is quoted iff it contains a delimiter, a quote
character, or a line-terminator character. -/
def needsQuote (f : Fld) : Bool :=
  f.any (fun c => c = 44 || c = 34 || c = 13 || c = 10)

/-- Double each quote character (`doublequote=True`). -/
def escapeQuotes : List Nat → List Nat
  | [] => []
  | c :: r => if c = 34 then 34 :: 34 :: escapeQuotes r else c :: escapeQuotes r

/-- Render one field, quoting it when needed. -/
def quoteField (f : Fld) : List Nat :=
  if needsQuote f then 34 :: (escapeQuotes f ++ [34]) else f

/-- Join pieces with a separator (`List.intercalate`, kept concrete for
easier reasoning). -/
def joinSep (sep : List Nat) : List (List Nat) → List Nat
  | [] => []
  | [x] => x
  | x :: y :: xs => x ++ sep ++ joinSep sep (y :: xs)

/-- Render one record as `csv.writer` does.  A record consisting of a
single empty field is written as `""` (CPython quotes it so the record is
not confused with a blank line). -/
def serializeRow (r : Row) : List Nat :=
  if r = [[]] then [34, 34] else joinSep [44] (r.map quoteField)

/-- One output line of `csv.writer`: the rendered record, UTF-8 encoded,
terminated by CRLF (the default `lineterminator='\r\n'`). -/
def serializeLine (r : Row) : List Nat :=
  utf8Encode (serializeRow r ++ [13, 10])

/-- Read one raw line: strip NUL bytes, decode UTF-8, parse as CSV —
the per-line work of the sanitization pass in `preprocess`. -/
def readLine (l : List Nat) : Option Row :=
  match utf8Decode (stripNul l) with
  | none => none
  | some cps => parseCSVLine cps

/-- Read a list of raw lines; the first failing line aborts the file. -/
def readAll : List (List Nat) → Option (List Row)
  | [] => some []
  | l :: ls =>
    match readLine l, readAll ls with
    | some r, some rs => some (r :: rs)
    | _, _ => none

/-- All records of a file, as `csv.reader` over its sanitized lines. -/
def readRecords (bs : List Nat) : Option (List Row) :=
  readAll (splitAfter bs)

/-- The NUL-sanitization pass of `preprocess` (lines 127-133): read every
line binary, strip NULs, decode, and rewrite the whole file through
`csv.writer`.  `none` models the uncaught per-file exception. -/
def sanitizeBytes (bs : List Nat) : Option (List Nat) :=
  match readRecords bs with
  | none => none
  | some rows => some ((rows.map serializeLine).flatten)

/-- `len(list(filter(None, line)))`: the number of non-empty fields. -/
def populatedCount (r : Row) : Nat :=
  (r.filter (fun f => decide (f ≠ []))).length

/-- Python's `enumerate(xs, s)`. -/
def enumFromIdx (s : Nat) : List α → List (Nat × α)
  | [] => []
  | a :: l => (s, a) :: enumFromIdx (s + 1) l

/-- The `malformed` dict built by the scan loop of `preprocess`
(lines 140-147): data rows are enumerated from 2, and a row is recorded
iff `0 < populatedCount < length`. -/
def malformedIndex (n : Nat) (rows : List Row) : List (Nat × Row) :=
  (enumFromIdx 2 rows).filter
    (fun p => decide (populatedCount p.2 < n) && decide (0 < populatedCount p.2))

/-- `corrupt_map.get(idx)`. -/
def lookupLine (m : List (Nat × Row)) (i : Nat) : Option Row :=
  (m.find? (fun p => p.1 == i)).map (fun p => p.2)

/-- Log messages emitted by `preprocess` / `fix_bad_line`. -/
inductive LogEvent
  | malformedLine (idx : Nat)
  | fixingFile
  | emptyLine (idx : Nat)
  | combined (a b : Nat)
deriving DecidableEq

/-- The body of the `fix_bad_line` loop for one `(idx, line)` pair:
the rows it writes and the log events it emits.  Mirrors lines 179-200:
pass rows that are not in the map and non-empty, log-and-drop blank rows,
and for mapped rows merge with the next mapped row when the raw field
counts sum to `num_cols`. -/
def fixStep (numCols : Nat) (cmap : List (Nat × Row)) (idx : Nat) (line : Row) :
    List Row × List LogEvent :=
  if lookupLine cmap idx = none ∧ line ≠ [] then ([line], [])
  else if line = [] then ([], [LogEvent.emptyLine idx])
  else
    match lookupLine cmap idx, lookupLine cmap (idx + 1) with
    | some tl, some nl =>
      if tl ≠ [] ∧ nl ≠ [] then
        if tl.length + nl.length = numCols then
          ([tl ++ nl], [LogEvent.combined idx (idx + 1)])
        else ([], [])
      else ([], [])
    | _, _ => ([], [])

/-- Rows written by the `fix_bad_line` loop over rows enumerated from `s`. -/
def fixRun (numCols : Nat) (cmap : List (Nat × Row)) (s : Nat)
    (rows : List Row) : List Row :=
  ((enumFromIdx s rows).map (fun p => (fixStep numCols cmap p.1 p.2).1)).flatten

/-- Log events emitted by the `fix_bad_line` loop over rows enumerated
from `s`. -/
def fixRunLogs (numCols : Nat) (cmap : List (Nat × Row)) (s : Nat)
    (rows : List Row) : List LogEvent :=
  ((enumFromIdx s rows).map (fun p => (fixStep numCols cmap p.1 p.2).2)).flatten

/-- `fix_bad_line`, at the record level: the whole file (header included)
is enumerated from 1 and each row goes through `fixStep`. -/
def fixBadLine (numCols : Nat) (cmap : List (Nat × Row)) (rows : List Row) :
    List Row × List LogEvent :=
  (fixRun numCols cmap 1 rows, fixRunLogs numCols cmap 1 rows)

/-- The record-level part of `preprocess` for one file, after
sanitization: scan data rows (enumerated from 2) against the header
length and run `fix_bad_line` iff the malformed map is non-empty. -/
def preprocessRecords (header : Row) (dataRows : List Row) :
    List Row × List LogEvent :=
  let n := header.length
  let cmap := malformedIndex n dataRows
  let scanLogs := cmap.map (fun p => LogEvent.malformedLine p.1)
  if cmap = [] then (header :: dataRows, scanLogs)
  else
    let fixed := fixBadLine n cmap (header :: dataRows)
    (fixed.1, scanLogs ++ LogEvent.fixingFile :: fixed.2)

/-- The full per-file pipeline of `preprocess`, at the byte level:
sanitize, re-read, scan, and conditionally repair.  `none` models the
per-file uncaught exceptions (decode error, `csv.Error`, or
`StopIteration` on a file with no header line). -/
def preprocessFileBytes (bs : List Nat) : Option (List Nat × List LogEvent) :=
  (sanitizeBytes bs).bind fun g =>
    (readRecords g).bind fun rows =>
      match rows with
      | [] => none
      | header :: dataRows =>
        let n := header.length
        let cmap := malformedIndex n dataRows
        let scanLogs := cmap.map (fun p => LogEvent.malformedLine p.1)
        if cmap = [] then some (g, scanLogs)
        else
          let fixed := fixBadLine n cmap (header :: dataRows)
          some ((fixed.1.map serializeLine).flatten,
            scanLogs ++ LogEvent.fixingFile :: fixed.2)

/-- Final on-disk content of one file after the `preprocess` loop touched
it: its pipeline output on success, the original content on failure. -/
def outFile (bs : List Nat) : List Nat :=
  match preprocessFileBytes bs with
  | some r => r.1
  | none => bs

/-- The `for fin in files` loop of `preprocess`: files are processed in
order; an exception in one file propagates and aborts the loop, leaving
the failing file and every later file untouched.  Returns the final
content of every file and the position of the failing file, if any. -/
def preprocessAll : List (List Nat) → List (List Nat) × Option Nat
  | [] => ([], none)
  | f :: fs =>
    match preprocessFileBytes f with
    | some r =>
      let rest := preprocessAll fs
      (r.1 :: rest.1, rest.2.map (· + 1))
    | none => (f :: fs, some 0)

/-- Primitive filesystem events of the write-to-temporary-then-replace
pattern used by both mutation sites (`preprocess` line 133 and
`fix_bad_line` line 202). -/
inductive FsOp
  | writeTmp (chunk : List Nat)
  | replace
deriving DecidableEq

/-- Observable filesystem state: the real file and the temporary file. -/
structure FsState where
  main : List Nat
  tmp : List Nat
deriving DecidableEq

/-- Effect of one filesystem event: writes append to the temporary file
only; `os.replace` atomically installs the temporary file. -/
def applyOp (s : FsState) (op : FsOp) : FsState :=
  match op with
  | FsOp.writeTmp c => ⟨s.main, s.tmp ++ c⟩
  | FsOp.replace => ⟨s.tmp, []⟩

/-- Run a sequence of filesystem events from original content `pre`. -/
def runOps (pre : List Nat) (ops : List FsOp) : FsState :=
  ops.foldl applyOp ⟨pre, []⟩

/-- The event trace of one mutation step: write the output line by line
into the temporary file, then one atomic replace. -/
def atomicWriteTrace (chunks : List (List Nat)) : List FsOp :=
  chunks.map FsOp.writeTmp ++ [FsOp.replace]


/-! ### Enumeration and malformed-map lookup -/

theorem enumFromIdx_cons (s : Nat) (x : α) (l : List α) :
    enumFromIdx s (x :: l) = (s, x) :: enumFromIdx (s + 1) l := rfl

theorem enumFromIdx_append (s : Nat) (xs ys : List α) :
    enumFromIdx s (xs ++ ys)
      = enumFromIdx s xs ++ enumFromIdx (s + xs.length) ys := by
  induction xs generalizing s with
  | nil => simp [enumFromIdx]
  | cons x xs ih =>
    have h : s + (xs.length + 1) = s + 1 + xs.length := by omega
    simp only [List.cons_append, enumFromIdx_cons, ih (s + 1), List.length_cons, h]

theorem mem_enumFromIdx {s i : Nat} {a : α} {l : List α} :
    (i, a) ∈ enumFromIdx s l ↔ s ≤ i ∧ l[i - s]? = some a := by
  induction l generalizing s with
  | nil => simp [enumFromIdx]
  | cons x xs ih =>
    rw [enumFromIdx_cons, List.mem_cons, ih]
    constructor
    · rintro (h | ⟨h1, h2⟩)
      · obtain ⟨h1, h2⟩ := Prod.mk.injEq .. ▸ h
        subst h1; subst h2
        simp
      · refine ⟨by omega, ?_⟩
        have hidx : i - s = (i - (s + 1)) + 1 := by omega
        rw [hidx, List.getElem?_cons_succ]
        exact h2
    · rintro ⟨h1, h2⟩
      rcases Nat.eq_or_lt_of_le h1 with heq | hlt
      · subst heq
        simp only [Nat.sub_self, List.getElem?_cons_zero, Option.some.injEq] at h2
        exact Or.inl (by rw [h2])
      · right
        refine ⟨by omega, ?_⟩
        have hidx : i - s = (i - (s + 1)) + 1 := by omega
        rw [hidx, List.getElem?_cons_succ] at h2
        exact h2

theorem lookupLine_cons_ne (p : Nat × Row) (m : List (Nat × Row)) (i : Nat)
    (h : p.1 ≠ i) : lookupLine (p :: m) i = lookupLine m i := by
  unfold lookupLine
  rw [List.find?_cons_of_neg]
  simp only [beq_iff_eq]
  exact h

theorem lookupLine_cons_self (i : Nat) (r : Row) (m : List (Nat × Row)) :
    lookupLine ((i, r) :: m) i = some r := by
  unfold lookupLine
  rw [List.find?_cons_of_pos]
  · rfl
  · simp

theorem lookupLine_enum_filter_lt (q : Nat × Row → Bool) (rows : List Row)
    (s j : Nat) (h : j < s) :
    lookupLine ((enumFromIdx s rows).filter q) j = none := by
  have hfind : ((enumFromIdx s rows).filter q).find? (fun p => p.1 == j) = none := by
    rw [List.find?_eq_none]
    rintro ⟨i, a⟩ hp
    have hmem := (List.mem_filter.mp hp).1
    have hle := (mem_enumFromIdx.mp hmem).1
    show ¬ (i == j) = true
    simp only [beq_iff_eq]
    omega
  simp [lookupLine, hfind]

theorem lookupLine_filter_enum (q : Nat × Row → Bool) (rows : List Row) :
    ∀ (s j : Nat) (r : Row), rows[j]? = some r →
      lookupLine ((enumFromIdx s rows).filter q) (s + j)
        = if q (s + j, r) = true then some r else none := by
  induction rows with
  | nil => intro s j r h; simp at h
  | cons x xs ih =>
    intro s j r h
    cases j with
    | zero =>
      simp only [List.getElem?_cons_zero, Option.some.injEq] at h
      subst h
      rw [enumFromIdx_cons]
      by_cases hq : q (s, x) = true
      · rw [List.filter_cons_of_pos hq]
        simp only [Nat.add_zero, hq, if_true]
        exact lookupLine_cons_self s _ _
      · rw [List.filter_cons_of_neg hq]
        simp only [Nat.add_zero, hq, if_false]
        exact lookupLine_enum_filter_lt q xs (s + 1) s (by omega)
    | succ j =>
      rw [List.getElem?_cons_succ] at h
      rw [enumFromIdx_cons]
      have harith : s + (j + 1) = (s + 1) + j := by omega
      by_cases hq : q (s, x) = true
      · rw [List.filter_cons_of_pos hq]
        rw [lookupLine_cons_ne _ _ _ (by show s ≠ s + (j + 1); omega)]
        rw [harith]
        exact ih (s + 1) j r h
      · rw [List.filter_cons_of_neg hq]
        rw [harith]
        exact ih (s + 1) j r h

theorem lookupLine_malformedIndex (n : Nat) (rows : List Row) (k : Nat) (r : Row)
    (h : rows[k]? = some r) :
    lookupLine (malformedIndex n rows) (k + 2)
      = if 0 < populatedCount r ∧ populatedCount r < n then some r else none := by
  have h2 := lookupLine_filter_enum
    (fun p => decide (populatedCount p.2 < n) && decide (0 < populatedCount p.2))
    rows 2 k r h
  rw [Nat.add_comm 2 k] at h2
  rw [malformedIndex, h2]
  by_cases hc : 0 < populatedCount r ∧ populatedCount r < n
  · rw [if_pos hc, if_pos (by simp [hc.1, hc.2])]
  · rw [if_neg hc, if_neg]
    simp only [Bool.and_eq_true, decide_eq_true_eq]
    exact fun hb => hc ⟨hb.2, hb.1⟩

theorem lookupLine_malformedIndex_lt (n : Nat) (rows : List Row) (j : Nat)
    (h : j < 2) : lookupLine (malformedIndex n rows) j = none :=
  lookupLine_enum_filter_lt _ rows 2 j h

theorem lookupLine_malformedIndex_some (n : Nat) (rows : List Row) (k : Nat)
    (r : Row) (h : rows[k]? = some r) (h1 : 0 < populatedCount r)
    (h2 : populatedCount r < n) :
    lookupLine (malformedIndex n rows) (k + 2) = some r := by
  rw [lookupLine_malformedIndex n rows k r h, if_pos ⟨h1, h2⟩]

theorem lookupLine_malformedIndex_none (n : Nat) (rows : List Row) (k : Nat)
    (r : Row) (h : rows[k]? = some r) (h2 : n ≤ populatedCount r) :
    lookupLine (malformedIndex n rows) (k + 2) = none := by
  rw [lookupLine_malformedIndex n rows k r h, if_neg (by omega)]

/-! ### The repair loop -/

theorem fixStep_pass (n : Nat) (cmap : List (Nat × Row)) (idx : Nat) (line : Row)
    (h1 : lookupLine cmap idx = none) (h2 : line ≠ []) :
    fixStep n cmap idx line = ([line], []) := by
  unfold fixStep
  rw [if_pos ⟨h1, h2⟩]

theorem fixStep_blank (n : Nat) (cmap : List (Nat × Row)) (idx : Nat) :
    fixStep n cmap idx [] = ([], [LogEvent.emptyLine idx]) := by
  unfold fixStep
  rw [if_neg (by simp), if_pos rfl]

theorem fixStep_merge (n : Nat) (cmap : List (Nat × Row)) (idx : Nat)
    (line tl nl : Row) (hline : line ≠ [])
    (h1 : lookupLine cmap idx = some tl)
    (h2 : lookupLine cmap (idx + 1) = some nl)
    (h3 : tl ≠ []) (h4 : nl ≠ []) (h5 : tl.length + nl.length = n) :
    fixStep n cmap idx line = ([tl ++ nl], [LogEvent.combined idx (idx + 1)]) := by
  unfold fixStep
  rw [if_neg (by simp [h1]), if_neg hline, h1, h2]
  simp [h3, h4, h5]

theorem fixStep_nonext (n : Nat) (cmap : List (Nat × Row)) (idx : Nat)
    (line tl : Row) (hline : line ≠ [])
    (h1 : lookupLine cmap idx = some tl)
    (h2 : lookupLine cmap (idx + 1) = none) :
    fixStep n cmap idx line = ([], []) := by
  unfold fixStep
  rw [if_neg (by simp [h1]), if_neg hline, h1, h2]

theorem fixStep_badsum (n : Nat) (cmap : List (Nat × Row)) (idx : Nat)
    (line tl nl : Row) (hline : line ≠ [])
    (h1 : lookupLine cmap idx = some tl)
    (h2 : lookupLine cmap (idx + 1) = some nl)
    (h3 : tl ≠ []) (h4 : nl ≠ []) (h5 : tl.length + nl.length ≠ n) :
    fixStep n cmap idx line = ([], []) := by
  unfold fixStep
  rw [if_neg (by simp [h1]), if_neg hline, h1, h2]
  simp [h3, h4, h5]

theorem mem_fixStep_fst (n : Nat) (cmap : List (Nat × Row)) (idx : Nat)
    (line r : Row) (h : r ∈ (fixStep n cmap idx line).1) :
    (lookupLine cmap idx = none ∧ line ≠ [] ∧ r = line)
    ∨ ∃ tl nl, lookupLine cmap idx = some tl
        ∧ lookupLine cmap (idx + 1) = some nl
        ∧ tl ≠ [] ∧ nl ≠ [] ∧ tl.length + nl.length = n ∧ r = tl ++ nl := by
  unfold fixStep at h
  split at h
  · rename_i hc
    simp only [List.mem_singleton] at h
    exact Or.inl ⟨hc.1, hc.2, h⟩
  · split at h
    · simp at h
    · rename_i hc hline
      split at h
      · rename_i tl nl h1 h2
        split at h
        · rename_i hne
          split at h
          · rename_i hsum
            simp only [List.mem_singleton] at h
            exact Or.inr ⟨tl, nl, h1, h2, hne.1, hne.2, hsum, h⟩
          · simp at h
        · simp at h
      · simp at h

theorem fixRun_nil (n : Nat) (cmap : List (Nat × Row)) (s : Nat) :
    fixRun n cmap s [] = [] := rfl

theorem fixRun_cons (n : Nat) (cmap : List (Nat × Row)) (s : Nat)
    (x : Row) (l : List Row) :
    fixRun n cmap s (x :: l)
      = (fixStep n cmap s x).1 ++ fixRun n cmap (s + 1) l := by
  simp [fixRun, enumFromIdx_cons]

theorem fixRun_append (n : Nat) (cmap : List (Nat × Row)) (s : Nat)
    (xs ys : List Row) :
    fixRun n cmap s (xs ++ ys)
      = fixRun n cmap s xs ++ fixRun n cmap (s + xs.length) ys := by
  simp [fixRun, enumFromIdx_append]

theorem mem_fixRun (n : Nat) (cmap : List (Nat × Row)) (s : Nat)
    (rows : List Row) (r : Row) (h : r ∈ fixRun n cmap s rows) :
    ∃ idx line, (idx, line) ∈ enumFromIdx s rows
      ∧ r ∈ (fixStep n cmap idx line).1 := by
  unfold fixRun at h
  rw [List.mem_flatten] at h
  obtain ⟨l, hl, hr⟩ := h
  rw [List.mem_map] at hl
  obtain ⟨⟨idx, line⟩, hmem, rfl⟩ := hl
  exact ⟨idx, line, hmem, hr⟩

theorem fixRunLogs_nil (n : Nat) (cmap : List (Nat × Row)) (s : Nat) :
    fixRunLogs n cmap s [] = [] := rfl

theorem fixRunLogs_cons (n : Nat) (cmap : List (Nat × Row)) (s : Nat)
    (x : Row) (l : List Row) :
    fixRunLogs n cmap s (x :: l)
      = (fixStep n cmap s x).2 ++ fixRunLogs n cmap (s + 1) l := by
  simp [fixRunLogs, enumFromIdx_cons]

theorem fixRunLogs_append (n : Nat) (cmap : List (Nat × Row)) (s : Nat)
    (xs ys : List Row) :
    fixRunLogs n cmap s (xs ++ ys)
      = fixRunLogs n cmap s xs ++ fixRunLogs n cmap (s + xs.length) ys := by
  simp [fixRunLogs, enumFromIdx_append]

/-! ### Basic facts about populated counts and membership -/

theorem populatedCount_nil : populatedCount [] = 0 := rfl

theorem ne_nil_of_pc {r : Row} (h : 0 < populatedCount r) : r ≠ [] := by
  intro he
  rw [he, populatedCount_nil] at h
  omega

theorem pass_mem_fixRun (n : Nat) (cmap : List (Nat × Row)) (s : Nat)
    (rows : List Row) (idx : Nat) (line : Row)
    (henum : (idx, line) ∈ enumFromIdx s rows)
    (h1 : lookupLine cmap idx = none) (h2 : line ≠ []) :
    line ∈ fixRun n cmap s rows := by
  unfold fixRun
  rw [List.mem_flatten]
  refine ⟨(fixStep n cmap idx line).1, List.mem_map.mpr ⟨(idx, line), henum, rfl⟩, ?_⟩
  rw [fixStep_pass _ _ _ _ h1 h2]
  simp

theorem malformed_not_mem_fixRun (header : Row) (dataRows : List Row) (r : Row)
    (hpc1 : 0 < populatedCount r) (hpc2 : populatedCount r < header.length)
    (hlen : r.length < header.length) :
    r ∉ fixRun header.length (malformedIndex header.length dataRows) 1
      (header :: dataRows) := by
  intro hmem
  obtain ⟨idx, line, henum, hstep⟩ := mem_fixRun _ _ _ _ _ hmem
  obtain ⟨hge, hget⟩ := mem_enumFromIdx.mp henum
  rcases mem_fixStep_fst _ _ _ _ _ hstep with ⟨hnone, hne, heq⟩
    | ⟨tl, nl, _, _, _, _, hsum, heq⟩
  · subst heq
    rcases Nat.eq_or_lt_of_le hge with h1 | h2
    · rw [← h1] at hget
      simp only [Nat.sub_self, List.getElem?_cons_zero, Option.some.injEq] at hget
      rw [← hget] at hlen
      omega
    · have hk : idx - 1 = (idx - 2) + 1 := by omega
      rw [hk, List.getElem?_cons_succ] at hget
      have hsome := lookupLine_malformedIndex_some header.length dataRows
        (idx - 2) r hget hpc1 hpc2
      have hidx : idx - 2 + 2 = idx := by omega
      rw [hidx, hnone] at hsome
      exact Option.noConfusion hsome
  · rw [heq, List.length_append] at hlen
    omega

/-! ### Decomposition of the repair output around a merge -/

theorem rows_decomp (dataRows : List Row) (k : Nat) (r : Row)
    (h : dataRows[k]? = some r) :
    dataRows = dataRows.take k ++ r :: dataRows.drop (k + 1) := by
  obtain ⟨hk, hv⟩ := List.getElem?_eq_some_iff.mp h
  conv_lhs => rw [← List.take_append_drop k dataRows]
  rw [List.drop_eq_getElem_cons hk, hv]

theorem mem_malformedIndex (n : Nat) (dataRows : List Row) (k : Nat) (r : Row)
    (h : dataRows[k]? = some r) (hpc1 : 0 < populatedCount r)
    (hpc2 : populatedCount r < n) :
    (k + 2, r) ∈ malformedIndex n dataRows := by
  rw [malformedIndex, List.mem_filter]
  constructor
  · refine mem_enumFromIdx.mpr ⟨by omega, ?_⟩
    have : k + 2 - 2 = k := by omega
    rw [this]
    exact h
  · simp [hpc1, hpc2]

theorem malformedIndex_pos (n : Nat) (dataRows : List Row)
    (h : malformedIndex n dataRows ≠ []) : 0 < n := by
  obtain ⟨p, hp⟩ := List.exists_mem_of_ne_nil _ h
  have := (List.mem_filter.mp hp).2
  simp only [Bool.and_eq_true, decide_eq_true_eq] at this
  omega

theorem preprocessRecords_fst_of_ne (header : Row) (dataRows : List Row)
    (h : malformedIndex header.length dataRows ≠ []) :
    (preprocessRecords header dataRows).1
      = fixRun header.length (malformedIndex header.length dataRows) 1
          (header :: dataRows) := by
  simp only [preprocessRecords, fixBadLine, h, if_false]

/-! ### Claim C1 -/

/-- Claim C1, counterexample: with a 3-column header, adjacent malformed
rows `["a","b"]` and `["","","c"]` have populated counts 2 and 1 summing
to `N = 3`, yet `fix_bad_line` drops both rows: the merge test compares
raw field counts (2 + 3 = 5 ≠ 3), so no combined row is emitted and the
output is just the header. -/
theorem c1_counterexample :
    (0 < populatedCount [[97], [98]] ∧ populatedCount [[97], [98]] < 3)
    ∧ (0 < populatedCount [[], [], [99]] ∧ populatedCount [[], [], [99]] < 3)
    ∧ populatedCount [[97], [98]] + populatedCount [[], [], [99]] = 3
    ∧ ([[104], [104], [104]] : Row).length = 3
    ∧ (preprocessRecords [[104], [104], [104]] [[[97], [98]], [[], [], [99]]]).1
        = [[[104], [104], [104]]]
    ∧ ([[97], [98]] ++ [[], [], [99]])
        ∉ (preprocessRecords [[104], [104], [104]]
            [[[97], [98]], [[], [], [99]]]).1 := by
  decide

/-- Claim C1, amended: the merge condition compares raw field counts, not
populated counts.  For adjacent malformed rows `i`, `i+1` whose raw field
counts sum to `N`, the repaired output has exactly the concatenated row
(which then has `N` fields) at the corresponding position, and rows `i`,
`i+1` individually no longer appear. -/
theorem c1_amended (header : Row) (dataRows : List Row) (k : Nat) (ri rj : Row)
    (hi : dataRows[k]? = some ri) (hj : dataRows[k + 1]? = some rj)
    (hpc1 : 0 < populatedCount ri) (hpc2 : populatedCount ri < header.length)
    (hpc3 : 0 < populatedCount rj) (hpc4 : populatedCount rj < header.length)
    (hsum : ri.length + rj.length = header.length) :
    (preprocessRecords header dataRows).1
      = fixRun header.length (malformedIndex header.length dataRows) 1
          (header :: dataRows.take k)
        ++ [ri ++ rj]
        ++ fixRun header.length (malformedIndex header.length dataRows) (k + 3)
          (dataRows.drop (k + 1))
    ∧ ri ∉ (preprocessRecords header dataRows).1
    ∧ rj ∉ (preprocessRecords header dataRows).1 := by
  have hmm : (k + 2, ri) ∈ malformedIndex header.length dataRows :=
    mem_malformedIndex _ _ _ _ hi hpc1 hpc2
  have hne : malformedIndex header.length dataRows ≠ [] := by
    intro h
    rw [h] at hmm
    exact List.not_mem_nil _ hmm
  have hout := preprocessRecords_fst_of_ne header dataRows hne
  have hrine : ri ≠ [] := ne_nil_of_pc hpc1
  have hrjne : rj ≠ [] := ne_nil_of_pc hpc3
  have hrjlen : 0 < rj.length := List.length_pos.mpr hrjne
  have hrilen : 0 < ri.length := List.length_pos.mpr hrine
  have hlk1 : lookupLine (malformedIndex header.length dataRows) (k + 2)
      = some ri := lookupLine_malformedIndex_some _ _ _ _ hi hpc1 hpc2
  have hlk2 : lookupLine (malformedIndex header.length dataRows) (k + 3)
      = some rj := by
    have h2 := lookupLine_malformedIndex_some header.length dataRows (k + 1)
      rj hj hpc3 hpc4
    have h13 : k + 1 + 2 = k + 3 := by omega
    rwa [h13] at h2
  have hklen : k < dataRows.length :=
    (List.getElem?_eq_some_iff.mp hi).1
  refine ⟨?_, ?_, ?_⟩
  · rw [hout]
    have hdec : header :: dataRows
        = (header :: dataRows.take k) ++ ri :: dataRows.drop (k + 1) := by
      conv_lhs => rw [rows_decomp dataRows k ri hi]
      rw [List.cons_append]
    rw [hdec, fixRun_append, fixRun_cons]
    have hlen : (header :: dataRows.take k).length = k + 1 := by
      simp [List.length_take, Nat.min_eq_left (le_of_lt hklen)]
    rw [hlen]
    have e1 : 1 + (k + 1) = k + 2 := by omega
    rw [e1]
    rw [fixRun_cons]
    rw [fixStep_merge header.length _ (k + 2) ri ri rj hrine hlk1
      (by rw [show k + 2 + 1 = k + 3 by omega]; exact hlk2) hrine hrjne hsum]
    rw [show k + 2 + 1 = k + 3 by omega]
    simp [List.append_assoc]
  · rw [hout]
    exact malformed_not_mem_fixRun header dataRows ri hpc1 hpc2 (by omega)
  · rw [hout]
    exact malformed_not_mem_fixRun header dataRows rj hpc3 hpc4 (by omega)

/-- Witness for C1 (amended): header `a,b,c`, malformed rows `1,2` and `3`
merge into `1,2,3`, and neither original row survives. -/
theorem c1_witness :
    (preprocessRecords [[97], [98], [99]] [[[49], [50]], [[51]]]).1
      = [[[97], [98], [99]], [[49], [50], [51]]]
    ∧ [[49], [50]] ∉ (preprocessRecords [[97], [98], [99]]
        [[[49], [50]], [[51]]]).1
    ∧ [[51]] ∉ (preprocessRecords [[97], [98], [99]] [[[49], [50]], [[51]]]).1
    := by
  have h := c1_amended [[97], [98], [99]] [[[49], [50]], [[51]]] 0
    [[49], [50]] [[51]] rfl rfl (by decide) (by decide) (by decide) (by decide)
    (by decide)
  refine ⟨?_, h.2.1, h.2.2⟩
  rw [h.1]
  decide

/-! ### Claim C2 -/

theorem drop_cons_of_get (l : List Row) (k : Nat) (r : Row)
    (h : l[k]? = some r) : l.drop k = r :: l.drop (k + 1) := by
  obtain ⟨hk, hv⟩ := List.getElem?_eq_some_iff.mp h
  rw [List.drop_eq_getElem_cons hk, hv]

/-- Claim C2, counterexample: nothing marks row `i+1` as consumed.  With a
4-column header and three consecutive malformed 2-field rows, both pairs
`(2,3)` and `(3,4)` satisfy the raw-count sum check, both merges are
emitted, and row 3's fields appear in two output rows. -/
theorem c2_counterexample :
    (preprocessRecords [[104], [104], [104], [104]]
        [[[97], []], [[98], []], [[99], []]]).1
      = [[[104], [104], [104], [104]],
         [[97], [], [98], []],
         [[98], [], [99], []]] := by
  decide

/-- Claim C2, amended: after rows `i` and `i+1` merge, row `i+1` is not
marked consumed: the scan reaches it again, and if row `i+2` is also
malformed with matching raw counts a second merge fires, duplicating row
`i+1`'s fields in the output. -/
theorem c2_amended (header : Row) (dataRows : List Row) (k : Nat)
    (ri rj rk : Row)
    (hi : dataRows[k]? = some ri) (hj : dataRows[k + 1]? = some rj)
    (hk2 : dataRows[k + 2]? = some rk)
    (hpc1 : 0 < populatedCount ri) (hpc2 : populatedCount ri < header.length)
    (hpc3 : 0 < populatedCount rj) (hpc4 : populatedCount rj < header.length)
    (hpc5 : 0 < populatedCount rk) (hpc6 : populatedCount rk < header.length)
    (hsum1 : ri.length + rj.length = header.length)
    (hsum2 : rj.length + rk.length = header.length) :
    (preprocessRecords header dataRows).1
      = fixRun header.length (malformedIndex header.length dataRows) 1
          (header :: dataRows.take k)
        ++ [ri ++ rj, rj ++ rk]
        ++ fixRun header.length (malformedIndex header.length dataRows) (k + 4)
          (dataRows.drop (k + 2)) := by
  have hmm : (k + 2, ri) ∈ malformedIndex header.length dataRows :=
    mem_malformedIndex _ _ _ _ hi hpc1 hpc2
  have hne : malformedIndex header.length dataRows ≠ [] := by
    intro h
    rw [h] at hmm
    exact List.not_mem_nil _ hmm
  have hout := preprocessRecords_fst_of_ne header dataRows hne
  have hrine : ri ≠ [] := ne_nil_of_pc hpc1
  have hrjne : rj ≠ [] := ne_nil_of_pc hpc3
  have hrkne : rk ≠ [] := ne_nil_of_pc hpc5
  have hlk1 : lookupLine (malformedIndex header.length dataRows) (k + 2)
      = some ri := lookupLine_malformedIndex_some _ _ _ _ hi hpc1 hpc2
  have hlk2 : lookupLine (malformedIndex header.length dataRows) (k + 3)
      = some rj := by
    have h2 := lookupLine_malformedIndex_some header.length dataRows (k + 1)
      rj hj hpc3 hpc4
    rwa [show k + 1 + 2 = k + 3 by omega] at h2
  have hlk3 : lookupLine (malformedIndex header.length dataRows) (k + 4)
      = some rk := by
    have h2 := lookupLine_malformedIndex_some header.length dataRows (k + 2)
      rk hk2 hpc5 hpc6
    rwa [show k + 2 + 2 = k + 4 by omega] at h2
  have hklen : k < dataRows.length :=
    (List.getElem?_eq_some_iff.mp hi).1
  rw [hout]
  have hdec : header :: dataRows
      = (header :: dataRows.take k) ++ ri :: rj :: dataRows.drop (k + 2) := by
    conv_lhs => rw [rows_decomp dataRows k ri hi,
      drop_cons_of_get dataRows (k + 1) rj hj]
    rw [List.cons_append]
  rw [hdec, fixRun_append, fixRun_cons]
  have hlen : (header :: dataRows.take k).length = k + 1 := by
    simp [List.length_take, Nat.min_eq_left (le_of_lt hklen)]
  rw [hlen]
  rw [show 1 + (k + 1) = k + 2 by omega]
  rw [fixRun_cons, fixRun_cons]
  rw [fixStep_merge header.length _ (k + 2) ri ri rj hrine hlk1
    (by rw [show k + 2 + 1 = k + 3 by omega]; exact hlk2) hrine hrjne hsum1]
  rw [show k + 2 + 1 = k + 3 by omega]
  rw [fixStep_merge header.length _ (k + 3) rj rj rk hrjne hlk2
    (by rw [show k + 3 + 1 = k + 4 by omega]; exact hlk3) hrjne hrkne hsum2]
  rw [show k + 3 + 1 = k + 4 by omega]
  simp [List.append_assoc]

/-- Witness for C2 (amended): a run of three malformed 2-field rows under
a 4-column header produces two overlapping merged rows. -/
theorem c2_witness :
    (preprocessRecords [[104], [104], [104], [104]]
        [[[97], []], [[98], []], [[99], []]]).1
      = [[[104], [104], [104], [104]],
         [[97], [], [98], []],
         [[98], [], [99], []]] := by
  have h := c2_amended [[104], [104], [104], [104]]
    [[[97], []], [[98], []], [[99], []]] 0 [[97], []] [[98], []] [[99], []]
    rfl rfl rfl (by decide) (by decide) (by decide) (by decide) (by decide)
    (by decide) (by decide) (by decide)
  rw [h]
  decide

/-! ### Claim C9 -/

/-- Claim C9 (confirmed): every row of the repaired output is either a
pass-through of an input row absent from the malformed map, or a merged
row whose raw field count is exactly `N`, the header's field count. -/
theorem c9_merged_width (header : Row) (dataRows : List Row) (r : Row)
    (h : r ∈ (fixBadLine header.length (malformedIndex header.length dataRows)
        (header :: dataRows)).1) :
    (∃ idx line, (idx, line) ∈ enumFromIdx 1 (header :: dataRows)
        ∧ lookupLine (malformedIndex header.length dataRows) idx = none
        ∧ r = line)
    ∨ r.length = header.length := by
  obtain ⟨idx, line, henum, hstep⟩ := mem_fixRun _ _ _ _ _ h
  rcases mem_fixStep_fst _ _ _ _ _ hstep with ⟨h1, _, heq⟩
    | ⟨tl, nl, _, _, _, _, hsum, heq⟩
  · exact Or.inl ⟨idx, line, henum, h1, heq⟩
  · right
    rw [heq, List.length_append, hsum]

/-- Witness for C9: the merged row `1,2,3` produced from `1,2` and `3`
under header `a,b,c` has exactly 3 fields. -/
theorem c9_witness :
    (∃ idx line,
        (idx, line) ∈ enumFromIdx 1
          ([[97], [98], [99]] :: ([[[49], [50]], [[51]]] : List Row))
        ∧ lookupLine (malformedIndex ([[97], [98], [99]] : Row).length
            [[[49], [50]], [[51]]]) idx = none
        ∧ ([[49], [50], [51]] : Row) = line)
    ∨ ([[49], [50], [51]] : Row).length = ([[97], [98], [99]] : Row).length :=
  c9_merged_width [[97], [98], [99]] [[[49], [50]], [[51]]] [[49], [50], [51]]
    (by decide)

/-! ### Claim C10 -/

theorem preprocessRecords_fst_of_eq (header : Row) (dataRows : List Row)
    (h : malformedIndex header.length dataRows = []) :
    (preprocessRecords header dataRows).1 = header :: dataRows := by
  simp [preprocessRecords, h]

/-- Claim C10 (confirmed): a data row whose populated count is at least
the header's field count is never recorded in the malformed map and is
copied through to the output of `preprocess` unchanged. -/
theorem c10_overfull_pass (header : Row) (dataRows : List Row) (k : Nat)
    (r : Row) (h1 : dataRows[k]? = some r)
    (h2 : header.length ≤ populatedCount r) :
    lookupLine (malformedIndex header.length dataRows) (k + 2) = none
    ∧ r ∈ (preprocessRecords header dataRows).1 := by
  have hnone := lookupLine_malformedIndex_none _ _ _ _ h1 h2
  refine ⟨hnone, ?_⟩
  by_cases hcm : malformedIndex header.length dataRows = []
  · rw [preprocessRecords_fst_of_eq header dataRows hcm]
    exact List.mem_cons_of_mem _ (List.getElem?_mem h1)
  · rw [preprocessRecords_fst_of_ne header dataRows hcm]
    have hn : 0 < header.length := malformedIndex_pos _ _ hcm
    have hrne : r ≠ [] := ne_nil_of_pc (by omega)
    refine pass_mem_fixRun _ _ _ _ (k + 2) r ?_ hnone hrne
    refine mem_enumFromIdx.mpr ⟨by omega, ?_⟩
    rw [show k + 2 - 1 = k + 1 by omega, List.getElem?_cons_succ]
    exact h1

/-- Witness for C10: under a 2-column header, the 3-field fully populated
row `1,2,3` is not malformed and passes through even while the repairer
runs for another row. -/
theorem c10_witness :
    lookupLine (malformedIndex ([[97], [98]] : Row).length
        [[[120], []], [[49], [50], [51]]]) (1 + 2) = none
    ∧ ([[49], [50], [51]] : Row) ∈ (preprocessRecords [[97], [98]]
        [[[120], []], [[49], [50], [51]]]).1 :=
  c10_overfull_pass [[97], [98]] [[[120], []], [[49], [50], [51]]] 1
    [[49], [50], [51]] rfl (by decide)

/-! ### Claim C3 -/

theorem fixStep_snd_cases (n : Nat) (cmap : List (Nat × Row)) (idx : Nat)
    (line : Row) :
    (fixStep n cmap idx line).2 = []
    ∨ (fixStep n cmap idx line).2 = [LogEvent.emptyLine idx]
    ∨ (fixStep n cmap idx line).2 = [LogEvent.combined idx (idx + 1)] := by
  unfold fixStep
  split
  · exact Or.inl rfl
  · split
    · exact Or.inr (Or.inl rfl)
    · split
      · split
        · split
          · exact Or.inr (Or.inr rfl)
          · exact Or.inl rfl
        · exact Or.inl rfl
      · exact Or.inl rfl

theorem count_fixRunLogs_emptyLine (n : Nat) (cmap : List (Nat × Row))
    (rows : List Row) : ∀ (s j : Nat), (j < s ∨ s + rows.length ≤ j) →
    (fixRunLogs n cmap s rows).count (LogEvent.emptyLine j) = 0 := by
  induction rows with
  | nil => intro s j _; simp [fixRunLogs_nil]
  | cons x xs ih =>
    intro s j hj
    rw [fixRunLogs_cons, List.count_append]
    have hs : s ≠ j := by
      rcases hj with h | h
      · omega
      · simp only [List.length_cons] at h; omega
    have hstep : (fixStep n cmap s x).2.count (LogEvent.emptyLine j) = 0 := by
      rcases fixStep_snd_cases n cmap s x with h | h | h <;> rw [h] <;>
        simp [List.count_cons, hs]
    rw [hstep]
    have hj2 : j < s + 1 ∨ (s + 1) + xs.length ≤ j := by
      rcases hj with h | h
      · exact Or.inl (by omega)
      · simp only [List.length_cons] at h; exact Or.inr (by omega)
    rw [ih (s + 1) j hj2]

theorem nil_not_mem_fixRun (n : Nat) (cmap : List (Nat × Row)) (s : Nat)
    (rows : List Row) : [] ∉ fixRun n cmap s rows := by
  intro h
  obtain ⟨idx, line, _, hstep⟩ := mem_fixRun _ _ _ _ _ h
  rcases mem_fixStep_fst _ _ _ _ _ hstep with ⟨_, hne, heq⟩
    | ⟨tl, nl, _, _, htl, _, _, heq⟩
  · exact hne heq.symm
  · exact htl (List.append_eq_nil.mp heq.symm).1

/-- Claim C3, counterexample: a data row whose three fields are all empty
has `PopulatedCount = 0` but is a non-empty Python list, so the
pass-through branch of `fix_bad_line` copies it to the output and no
empty-row log entry is produced for it. -/
theorem c3_counterexample :
    populatedCount [[], [], []] = 0
    ∧ ([[], [], []] : Row) ∈ (preprocessRecords [[97], [98], [99]]
        [[[120], []], [[], [], []]]).1
    ∧ (preprocessRecords [[97], [98], [99]]
        [[[120], []], [[], [], []]]).2.count (LogEvent.emptyLine 3) = 0 := by
  decide

/-- Claim C3, amended: only a row parsed as the zero-field record (a blank
line) is dropped by `fix_bad_line`: the empty record never appears in the
repaired output and its processing emits exactly one empty-row log entry
citing its line number.  (An all-empty row with one or more fields takes
the pass-through branch instead, as the counterexample shows.) -/
theorem c3_amended (n : Nat) (cmap : List (Nat × Row)) (rows : List Row)
    (k : Nat) (h : rows[k]? = some []) :
    [] ∉ (fixBadLine n cmap rows).1
    ∧ (fixBadLine n cmap rows).2.count (LogEvent.emptyLine (k + 1)) = 1 := by
  constructor
  · exact nil_not_mem_fixRun n cmap 1 rows
  · show (fixRunLogs n cmap 1 rows).count (LogEvent.emptyLine (k + 1)) = 1
    have hklen : k < rows.length := (List.getElem?_eq_some_iff.mp h).1
    conv_lhs => rw [rows_decomp rows k [] h]
    rw [fixRunLogs_append, fixRunLogs_cons]
    have hlen : (rows.take k).length = k := by
      simp [List.length_take, Nat.min_eq_left (le_of_lt hklen)]
    rw [hlen, fixStep_blank]
    rw [List.count_append, List.count_append]
    rw [count_fixRunLogs_emptyLine n cmap (rows.take k) 1 (k + 1)
      (Or.inr (by omega))]
    rw [count_fixRunLogs_emptyLine n cmap (rows.drop (k + 1)) (1 + k + 1)
      (k + 1) (Or.inl (by omega))]
    rw [show 1 + k = k + 1 by omega]
    simp

/-- Witness for C3 (amended): in a file with header `a,b,c`, a malformed
row and a blank third line, the blank record is dropped and logged once. -/
theorem c3_witness :
    [] ∉ (fixBadLine 3 (malformedIndex 3 [[[120], []], []])
        [[[97], [98], [99]], [[120], []], []]).1
    ∧ (fixBadLine 3 (malformedIndex 3 [[[120], []], []])
        [[[97], [98], [99]], [[120], []], []]).2.count
        (LogEvent.emptyLine 3) = 1 := by
  have h := c3_amended 3 (malformedIndex 3 [[[120], []], []])
    [[[97], [98], [99]], [[120], []], []] 2 rfl
  exact h

/-! ### Claim C8: atomicity of the mutation pattern -/

theorem flatten_splitAfter (bs : List Nat) : (splitAfter bs).flatten = bs := by
  induction bs with
  | nil => rfl
  | cons b rest ih =>
    unfold splitAfter
    by_cases hb : b = 10
    · rw [if_pos hb]
      simp [ih]
    · rw [if_neg hb]
      cases hsp : splitAfter rest with
      | nil =>
        have hrest : rest = [] := by rw [← ih, hsp]; rfl
        subst hrest
        rfl
      | cons l ls =>
        rw [hsp] at ih
        simp only [List.flatten_cons] at ih ⊢
        rw [List.cons_append, ih]

theorem foldl_writes (chunks : List (List Nat)) : ∀ s : FsState,
    (chunks.map FsOp.writeTmp).foldl applyOp s
      = ⟨s.main, s.tmp ++ chunks.flatten⟩ := by
  induction chunks with
  | nil => intro s; simp
  | cons c cs ih =>
    intro s
    simp only [List.map_cons, List.foldl_cons, applyOp, ih, List.flatten_cons,
      List.append_assoc]

theorem main_unchanged (ops : List FsOp) : ∀ s : FsState,
    FsOp.replace ∉ ops → (ops.foldl applyOp s).main = s.main := by
  induction ops with
  | nil => intro s _; rfl
  | cons op ops ih =>
    intro s hmem
    cases op with
    | writeTmp c =>
      rw [List.foldl_cons]
      exact ih _ (fun hc => hmem (List.mem_cons_of_mem _ hc))
    | replace => exact absurd (List.mem_cons_self _ _) hmem

theorem replace_not_mem_writes (chunks : List (List Nat)) :
    FsOp.replace ∉ chunks.map FsOp.writeTmp := by
  intro h
  obtain ⟨c, _, hc⟩ := List.mem_map.mp h
  exact FsOp.noConfusion hc

theorem trace_state (pre content : List Nat) (ops : List FsOp)
    (h : ops <+: atomicWriteTrace (splitAfter content)) :
    ((runOps pre ops).main = pre ∨ (runOps pre ops).main = content)
    ∧ (FsOp.replace ∉ ops → (runOps pre ops).main = pre) := by
  unfold atomicWriteTrace at h
  rcases List.prefix_concat_iff.mp h with heq | hpre
  · constructor
    · right
      rw [heq]
      unfold runOps
      rw [List.foldl_append, foldl_writes]
      simp [applyOp, flatten_splitAfter]
    · intro hmem
      exfalso
      apply hmem
      rw [heq]
      exact List.mem_append_right _ (List.mem_cons_self _ _)
  · have hnr : FsOp.replace ∉ ops := fun hc =>
      replace_not_mem_writes (splitAfter content) (hpre.subset hc)
    have hmain : (runOps pre ops).main = pre := main_unchanged ops _ hnr
    exact ⟨Or.inl hmain, fun _ => hmain⟩

/-- Claim C8 (confirmed): both mutation sites write the full new content
into a temporary file and install it with one atomic replace.  Along any
prefix of either step's event trace the observable file is exactly the
pre-step content or exactly the post-step content, and if the step stops
before the final replace (a failure partway), the file still holds the
original content. -/
theorem c8_atomic_mutation (bs g : List Nat) (h : sanitizeBytes bs = some g) :
    ((∀ ops, ops <+: atomicWriteTrace (splitAfter g) →
        (runOps bs ops).main = bs ∨ (runOps bs ops).main = g)
      ∧ ∀ ops, ops <+: atomicWriteTrace (splitAfter g) →
          FsOp.replace ∉ ops → (runOps bs ops).main = bs)
    ∧ ∀ out logs, preprocessFileBytes bs = some (out, logs) →
        (∀ ops, ops <+: atomicWriteTrace (splitAfter out) →
            (runOps g ops).main = g ∨ (runOps g ops).main = out)
        ∧ ∀ ops, ops <+: atomicWriteTrace (splitAfter out) →
            FsOp.replace ∉ ops → (runOps g ops).main = g := by
  refine ⟨⟨?_, ?_⟩, ?_⟩
  · exact fun ops hops => (trace_state bs g ops hops).1
  · exact fun ops hops => (trace_state bs g ops hops).2
  · intro out logs _
    exact ⟨fun ops hops => (trace_state g out ops hops).1,
      fun ops hops => (trace_state g out ops hops).2⟩

/-- Witness for C8: for the file `a,b` with the sanitized output written
but not yet replaced, the observable file is still the original. -/
theorem c8_witness :
    (runOps [97, 44, 98, 10] [FsOp.writeTmp [97, 44, 98, 13, 10]]).main
        = [97, 44, 98, 10]
    ∨ (runOps [97, 44, 98, 10] [FsOp.writeTmp [97, 44, 98, 13, 10]]).main
        = [97, 44, 98, 13, 10] :=
  (c8_atomic_mutation [97, 44, 98, 10] [97, 44, 98, 13, 10] (by decide)).1.1
    [FsOp.writeTmp [97, 44, 98, 13, 10]]
    ⟨[FsOp.replace], by decide⟩

/-! ### UTF-8 encoding and decoding -/

/-- A Unicode scalar value: what a Python `str` character can hold. -/
def ValidCp (c : Nat) : Prop := c < 0xD800 ∨ (0xE000 ≤ c ∧ c < 0x110000)

theorem utf8DecAux_nil0 : utf8DecAux [] 0 0 0 0 = some [] := rfl

theorem utf8DecAux_lead (b : Nat) (bs : List Nat) :
    utf8DecAux (b :: bs) 0 0 0 0
      = if b < 0x80 then (utf8DecAux bs 0 0 0 0).map (b :: ·)
        else if b < 0xC2 then none
        else if b < 0xE0 then utf8DecAux bs 1 (b - 0xC0) 0x80 0xC0
        else if b = 0xE0 then utf8DecAux bs 2 0 0xA0 0xC0
        else if b = 0xED then utf8DecAux bs 2 13 0x80 0xA0
        else if b < 0xF0 then utf8DecAux bs 2 (b - 0xE0) 0x80 0xC0
        else if b = 0xF0 then utf8DecAux bs 3 0 0x90 0xC0
        else if b = 0xF4 then utf8DecAux bs 3 4 0x80 0x90
        else if b < 0xF5 then utf8DecAux bs 3 (b - 0xF0) 0x80 0xC0
        else none := rfl

theorem utf8DecAux_last (b : Nat) (bs : List Nat) (acc lo hi : Nat) :
    utf8DecAux (b :: bs) 1 acc lo hi
      = if lo ≤ b ∧ b < hi then
          (utf8DecAux bs 0 0 0 0).map ((acc * 64 + (b - 0x80)) :: ·)
        else none := rfl

theorem utf8DecAux_mid (b : Nat) (bs : List Nat) (k acc lo hi : Nat) :
    utf8DecAux (b :: bs) (k + 2) acc lo hi
      = if lo ≤ b ∧ b < hi then
          utf8DecAux bs (k + 1) (acc * 64 + (b - 0x80)) 0x80 0xC0
        else none := rfl

theorem utf8DecAux_nil_succ (k acc lo hi : Nat) :
    utf8DecAux [] (k + 1) acc lo hi = none := rfl

theorem utf8Decode_encodeCp (c : Nat) (rest : List Nat) (h : ValidCp c) :
    utf8Decode (utf8EncodeCp c ++ rest)
      = (utf8Decode rest).map (c :: ·) := by
  unfold ValidCp at h
  unfold utf8Decode utf8EncodeCp
  by_cases h1 : c < 0x80
  · rw [if_pos h1]
    show utf8DecAux (c :: rest) 0 0 0 0 = _
    rw [utf8DecAux_lead, if_pos h1]
  · rw [if_neg h1]
    by_cases h2 : c < 0x800
    · rw [if_pos h2]
      show utf8DecAux ((0xC0 + c / 64) :: (0x80 + c % 64) :: rest) 0 0 0 0 = _
      rw [utf8DecAux_lead, if_neg (by omega), if_neg (by omega),
        if_pos (by omega), utf8DecAux_last, if_pos (by omega)]
      have hv : (0xC0 + c / 64 - 0xC0) * 64 + (0x80 + c % 64 - 0x80) = c := by
        omega
      rw [hv]
    · rw [if_neg h2]
      by_cases h3 : c < 0x10000
      · rw [if_pos h3]
        show utf8DecAux ((0xE0 + c / 4096) :: (0x80 + c / 64 % 64)
          :: (0x80 + c % 64) :: rest) 0 0 0 0 = _
        rw [utf8DecAux_lead, if_neg (by omega), if_neg (by omega),
          if_neg (by omega)]
        by_cases hc1 : c < 0x1000
        · rw [if_pos (by omega), utf8DecAux_mid, if_pos (by omega),
            utf8DecAux_last, if_pos (by omega)]
          have hv : ((0 : Nat) * 64 + (0x80 + c / 64 % 64 - 0x80)) * 64
              + (0x80 + c % 64 - 0x80) = c := by omega
          rw [hv]
        · by_cases hc2 : 0xD000 ≤ c ∧ c < 0xE000
          · have hsur : c < 0xD800 := by omega
            rw [if_neg (by omega), if_pos (by omega), utf8DecAux_mid,
              if_pos (by omega), utf8DecAux_last, if_pos (by omega)]
            have hv : ((13 : Nat) * 64 + (0x80 + c / 64 % 64 - 0x80)) * 64
                + (0x80 + c % 64 - 0x80) = c := by omega
            rw [hv]
          · rw [if_neg (by omega), if_neg (by omega), if_pos (by omega),
              utf8DecAux_mid, if_pos (by omega), utf8DecAux_last,
              if_pos (by omega)]
            have hv : ((0xE0 + c / 4096 - 0xE0) * 64
                + (0x80 + c / 64 % 64 - 0x80)) * 64
                + (0x80 + c % 64 - 0x80) = c := by omega
            rw [hv]
      · rw [if_neg h3]
        have h4 : c < 0x110000 := by omega
        show utf8DecAux ((0xF0 + c / 262144) :: (0x80 + c / 4096 % 64)
          :: (0x80 + c / 64 % 64) :: (0x80 + c % 64) :: rest) 0 0 0 0 = _
        rw [utf8DecAux_lead, if_neg (by omega), if_neg (by omega),
          if_neg (by omega), if_neg (by omega), if_neg (by omega),
          if_neg (by omega)]
        by_cases hc1 : c < 0x40000
        · rw [if_pos (by omega), utf8DecAux_mid, if_pos (by omega),
            utf8DecAux_mid, if_pos (by omega), utf8DecAux_last,
            if_pos (by omega)]
          have hv : (((0 : Nat) * 64 + (0x80 + c / 4096 % 64 - 0x80)) * 64
              + (0x80 + c / 64 % 64 - 0x80)) * 64 + (0x80 + c % 64 - 0x80)
              = c := by omega
          rw [hv]
        · by_cases hc2 : 0x100000 ≤ c
          · rw [if_neg (by omega), if_pos (by omega), utf8DecAux_mid,
              if_pos (by omega), utf8DecAux_mid, if_pos (by omega),
              utf8DecAux_last, if_pos (by omega)]
            have hv : (((4 : Nat) * 64 + (0x80 + c / 4096 % 64 - 0x80)) * 64
                + (0x80 + c / 64 % 64 - 0x80)) * 64 + (0x80 + c % 64 - 0x80)
                = c := by omega
            rw [hv]
          · rw [if_neg (by omega), if_neg (by omega), if_pos (by omega),
              utf8DecAux_mid, if_pos (by omega), utf8DecAux_mid,
              if_pos (by omega), utf8DecAux_last, if_pos (by omega)]
            have hv : (((0xF0 + c / 262144 - 0xF0) * 64
                + (0x80 + c / 4096 % 64 - 0x80)) * 64
                + (0x80 + c / 64 % 64 - 0x80)) * 64 + (0x80 + c % 64 - 0x80)
                = c := by omega
            rw [hv]

theorem utf8Decode_encode (cps : List Nat) (rest : List Nat)
    (h : ∀ c ∈ cps, ValidCp c) :
    utf8Decode (utf8Encode cps ++ rest) = (utf8Decode rest).map (cps ++ ·) := by
  induction cps with
  | nil =>
    show utf8Decode rest = _
    cases utf8Decode rest <;> simp
  | cons c cs ih =>
    show utf8Decode ((utf8EncodeCp c ++ utf8Encode cs) ++ rest) = _
    rw [List.append_assoc,
      utf8Decode_encodeCp c _ (h c (List.mem_cons_self _ _)),
      ih (fun x hx => h x (List.mem_cons_of_mem _ hx))]
    cases utf8Decode rest <;> simp

theorem utf8Decode_encode_closed (cps : List Nat) (h : ∀ c ∈ cps, ValidCp c) :
    utf8Decode (utf8Encode cps) = some cps := by
  have h2 := utf8Decode_encode cps [] h
  rw [List.append_nil] at h2
  rw [h2]
  show Option.map _ (utf8DecAux [] 0 0 0 0) = _
  rw [utf8DecAux_nil0]
  simp

theorem utf8Encode_append (a b : List Nat) :
    utf8Encode (a ++ b) = utf8Encode a ++ utf8Encode b := by
  simp [utf8Encode]

theorem mem_utf8EncodeCp (b c : Nat) (h : b ∈ utf8EncodeCp c) :
    b = c ∨ 0x80 ≤ b := by
  unfold utf8EncodeCp at h
  split_ifs at h <;>
    (simp only [List.mem_cons, List.mem_singleton, List.not_mem_nil,
      or_false] at h; omega)

theorem mem_utf8Encode (b : Nat) (cps : List Nat) (h : b ∈ utf8Encode cps) :
    ∃ c ∈ cps, b ∈ utf8EncodeCp c := by
  unfold utf8Encode at h
  rw [List.mem_flatten] at h
  obtain ⟨l, hl, hb⟩ := h
  obtain ⟨c, hc, rfl⟩ := List.mem_map.mp hl
  exact ⟨c, hc, hb⟩

theorem utf8DecAux_last_inv (bs : List Nat) (acc lo hi : Nat)
    (cps : List Nat) (h : utf8DecAux bs 1 acc lo hi = some cps) :
    ∃ b rest cps', bs = b :: rest ∧ lo ≤ b ∧ b < hi
      ∧ utf8Decode rest = some cps'
      ∧ cps = (acc * 64 + (b - 0x80)) :: cps' := by
  cases bs with
  | nil => rw [utf8DecAux_nil_succ] at h; exact absurd h (by simp)
  | cons b rest =>
    rw [utf8DecAux_last] at h
    split_ifs at h with hb
    obtain ⟨cps', hdec, hcps⟩ := Option.map_eq_some'.mp h
    exact ⟨b, rest, cps', rfl, hb.1, hb.2, hdec, hcps.symm⟩

theorem utf8DecAux_mid_inv (bs : List Nat) (k acc lo hi : Nat)
    (cps : List Nat) (h : utf8DecAux bs (k + 2) acc lo hi = some cps) :
    ∃ b rest, bs = b :: rest ∧ lo ≤ b ∧ b < hi
      ∧ utf8DecAux rest (k + 1) (acc * 64 + (b - 0x80)) 0x80 0xC0
          = some cps := by
  cases bs with
  | nil => rw [utf8DecAux_nil_succ] at h; exact absurd h (by simp)
  | cons b rest =>
    rw [utf8DecAux_mid] at h
    split_ifs at h with hb
    exact ⟨b, rest, rfl, hb.1, hb.2, h⟩

set_option maxHeartbeats 1000000 in
set_option maxRecDepth 10000 in
theorem utf8Decode_props : ∀ (n : Nat) (bs cps : List Nat),
    bs.length ≤ n → utf8Decode bs = some cps →
    ∀ c ∈ cps, ValidCp c ∧ (c = 0 → 0 ∈ bs) := by
  intro n
  induction n with
  | zero =>
    intro bs cps hlen h c hc
    have hbs : bs = [] := List.length_eq_zero.mp (Nat.le_zero.mp hlen)
    subst hbs
    rw [utf8Decode, utf8DecAux_nil0] at h
    simp only [Option.some.injEq] at h
    subst h
    exact absurd hc (List.not_mem_nil c)
  | succ n ih =>
    intro bs cps hlen h c hc
    cases bs with
    | nil =>
      rw [utf8Decode, utf8DecAux_nil0] at h
      simp only [Option.some.injEq] at h
      subst h
      exact absurd hc (List.not_mem_nil c)
    | cons b bs1 =>
      simp only [List.length_cons] at hlen
      rw [utf8Decode, utf8DecAux_lead] at h
      split_ifs at h with h1 h2 h3 h4 h5 h6 h7 h8 h9
      · -- ASCII byte
        obtain ⟨cps', hdec, hcps⟩ := Option.map_eq_some'.mp h
        subst hcps
        rcases List.mem_cons.mp hc with rfl | hc'
        · exact ⟨Or.inl (by omega),
            fun h0 => by rw [h0]; exact List.mem_cons_self _ _⟩
        · have hr := ih bs1 cps' (by omega) hdec c hc'
          exact ⟨hr.1, fun h0 => List.mem_cons_of_mem _ (hr.2 h0)⟩
      · -- two-byte lead
        obtain ⟨b1, rest, cps', hshape, hlo, hhi, hdec, hcps⟩ :=
          utf8DecAux_last_inv bs1 (b - 0xC0) 0x80 0xC0 cps h
        subst hshape
        subst hcps
        simp only [List.length_cons] at hlen
        rcases List.mem_cons.mp hc with rfl | hc'
        · refine ⟨Or.inl (by omega), fun h0 => ?_⟩
          exfalso
          omega
        · have hr := ih rest cps' (by omega) hdec c hc'
          exact ⟨hr.1,
            fun h0 => List.mem_cons_of_mem _ (List.mem_cons_of_mem _ (hr.2 h0))⟩
      · obtain ⟨b1, rest1, hshape1, hlo1, hhi1, hmid⟩ :=
          utf8DecAux_mid_inv bs1 0 _ _ _ cps h
        obtain ⟨b2, rest2, cps', hshape2, hlo2, hhi2, hdec, hcps⟩ :=
          utf8DecAux_last_inv rest1 _ 0x80 0xC0 cps hmid
        subst hshape1
        subst hshape2
        subst hcps
        simp only [List.length_cons] at hlen
        rcases List.mem_cons.mp hc with rfl | hc'
        · refine ⟨?_, fun h0 => ?_⟩
          · unfold ValidCp
            omega
          · exfalso
            omega
        · have hr := ih rest2 cps' (by omega) hdec c hc'
          exact ⟨hr.1, fun h0 => List.mem_cons_of_mem _
            (List.mem_cons_of_mem _ (List.mem_cons_of_mem _ (hr.2 h0)))⟩
      · obtain ⟨b1, rest1, hshape1, hlo1, hhi1, hmid⟩ :=
          utf8DecAux_mid_inv bs1 0 _ _ _ cps h
        obtain ⟨b2, rest2, cps', hshape2, hlo2, hhi2, hdec, hcps⟩ :=
          utf8DecAux_last_inv rest1 _ 0x80 0xC0 cps hmid
        subst hshape1
        subst hshape2
        subst hcps
        simp only [List.length_cons] at hlen
        rcases List.mem_cons.mp hc with rfl | hc'
        · refine ⟨?_, fun h0 => ?_⟩
          · unfold ValidCp
            omega
          · exfalso
            omega
        · have hr := ih rest2 cps' (by omega) hdec c hc'
          exact ⟨hr.1, fun h0 => List.mem_cons_of_mem _
            (List.mem_cons_of_mem _ (List.mem_cons_of_mem _ (hr.2 h0)))⟩
      · obtain ⟨b1, rest1, hshape1, hlo1, hhi1, hmid⟩ :=
          utf8DecAux_mid_inv bs1 0 _ _ _ cps h
        obtain ⟨b2, rest2, cps', hshape2, hlo2, hhi2, hdec, hcps⟩ :=
          utf8DecAux_last_inv rest1 _ 0x80 0xC0 cps hmid
        subst hshape1
        subst hshape2
        subst hcps
        simp only [List.length_cons] at hlen
        rcases List.mem_cons.mp hc with rfl | hc'
        · refine ⟨?_, fun h0 => ?_⟩
          · unfold ValidCp
            omega
          · exfalso
            omega
        · have hr := ih rest2 cps' (by omega) hdec c hc'
          exact ⟨hr.1, fun h0 => List.mem_cons_of_mem _
            (List.mem_cons_of_mem _ (List.mem_cons_of_mem _ (hr.2 h0)))⟩
      · obtain ⟨b1, rest1, hshape1, hlo1, hhi1, hmid1⟩ :=
          utf8DecAux_mid_inv bs1 1 _ _ _ cps h
        obtain ⟨b2, rest2, hshape2, hlo2, hhi2, hmid2⟩ :=
          utf8DecAux_mid_inv rest1 0 _ _ _ cps hmid1
        obtain ⟨b3, rest3, cps', hshape3, hlo3, hhi3, hdec, hcps⟩ :=
          utf8DecAux_last_inv rest2 _ 0x80 0xC0 cps hmid2
        subst hshape1
        subst hshape2
        subst hshape3
        subst hcps
        simp only [List.length_cons] at hlen
        rcases List.mem_cons.mp hc with rfl | hc'
        · refine ⟨?_, fun h0 => ?_⟩
          · unfold ValidCp
            omega
          · exfalso
            omega
        · have hr := ih rest3 cps' (by omega) hdec c hc'
          exact ⟨hr.1, fun h0 => List.mem_cons_of_mem _
            (List.mem_cons_of_mem _ (List.mem_cons_of_mem _
              (List.mem_cons_of_mem _ (hr.2 h0))))⟩
      · obtain ⟨b1, rest1, hshape1, hlo1, hhi1, hmid1⟩ :=
          utf8DecAux_mid_inv bs1 1 _ _ _ cps h
        obtain ⟨b2, rest2, hshape2, hlo2, hhi2, hmid2⟩ :=
          utf8DecAux_mid_inv rest1 0 _ _ _ cps hmid1
        obtain ⟨b3, rest3, cps', hshape3, hlo3, hhi3, hdec, hcps⟩ :=
          utf8DecAux_last_inv rest2 _ 0x80 0xC0 cps hmid2
        subst hshape1
        subst hshape2
        subst hshape3
        subst hcps
        simp only [List.length_cons] at hlen
        rcases List.mem_cons.mp hc with rfl | hc'
        · refine ⟨?_, fun h0 => ?_⟩
          · unfold ValidCp
            omega
          · exfalso
            omega
        · have hr := ih rest3 cps' (by omega) hdec c hc'
          exact ⟨hr.1, fun h0 => List.mem_cons_of_mem _
            (List.mem_cons_of_mem _ (List.mem_cons_of_mem _
              (List.mem_cons_of_mem _ (hr.2 h0))))⟩
      · obtain ⟨b1, rest1, hshape1, hlo1, hhi1, hmid1⟩ :=
          utf8DecAux_mid_inv bs1 1 _ _ _ cps h
        obtain ⟨b2, rest2, hshape2, hlo2, hhi2, hmid2⟩ :=
          utf8DecAux_mid_inv rest1 0 _ _ _ cps hmid1
        obtain ⟨b3, rest3, cps', hshape3, hlo3, hhi3, hdec, hcps⟩ :=
          utf8DecAux_last_inv rest2 _ 0x80 0xC0 cps hmid2
        subst hshape1
        subst hshape2
        subst hshape3
        subst hcps
        simp only [List.length_cons] at hlen
        rcases List.mem_cons.mp hc with rfl | hc'
        · refine ⟨?_, fun h0 => ?_⟩
          · unfold ValidCp
            omega
          · exfalso
            omega
        · have hr := ih rest3 cps' (by omega) hdec c hc'
          exact ⟨hr.1, fun h0 => List.mem_cons_of_mem _
            (List.mem_cons_of_mem _ (List.mem_cons_of_mem _
              (List.mem_cons_of_mem _ (hr.2 h0))))⟩

theorem utf8Decode_valid (bs cps : List Nat) (h : utf8Decode bs = some cps) :
    ∀ c ∈ cps, ValidCp c :=
  fun c hc => (utf8Decode_props bs.length bs cps (Nat.le_refl _) h c hc).1

theorem utf8Decode_no_zero (bs cps : List Nat) (h : utf8Decode bs = some cps)
    (h0 : 0 ∉ bs) : ∀ c ∈ cps, c ≠ 0 :=
  fun c hc hz =>
    h0 ((utf8Decode_props bs.length bs cps (Nat.le_refl _) h c hc).2 hz)

/-! ### CSV parser: preserved properties of fields -/

theorem parseRec_preserves (p : Nat → Prop) : ∀ (cs : List Nat) (st : PState)
    (cur : List Nat) (fields out : List (List Nat)),
    parseRec cs st cur fields = some out →
    (∀ c ∈ cs, p c) → (∀ c ∈ cur, p c) → (∀ f ∈ fields, ∀ c ∈ f, p c) →
    ∀ f ∈ out, ∀ c ∈ f, p c := by
  intro cs
  induction cs with
  | nil =>
    intro st cur fields out h hcs hcur hfields
    cases st <;>
      (simp only [parseRec, Option.some.injEq] at h
       subst h
       intro f hf
       rcases List.mem_append.mp hf with hf | hf
       · exact hfields f hf
       · simp only [List.mem_singleton] at hf
         subst hf
         first
           | (intro c hc; exact absurd hc (List.not_mem_nil c))
           | exact hcur)
  | cons a rest ih =>
    intro st cur fields out h hcs hcur hfields
    have has : p a := hcs a (List.mem_cons_self _ _)
    have hrest : ∀ c ∈ rest, p c := fun c hc => hcs c (List.mem_cons_of_mem _ hc)
    have hpush : ∀ g ∈ fields ++ [cur], ∀ c ∈ g, p c := by
      intro g hg
      rcases List.mem_append.mp hg with hg | hg
      · exact hfields g hg
      · simp only [List.mem_singleton] at hg
        subst hg
        exact hcur
    have hpushe : ∀ g ∈ fields ++ [[]], ∀ c ∈ g, p c := by
      intro g hg
      rcases List.mem_append.mp hg with hg | hg
      · exact hfields g hg
      · simp only [List.mem_singleton] at hg
        subst hg
        intro c hc
        exact absurd hc (List.not_mem_nil c)
    have hsnoc : ∀ c ∈ cur ++ [a], p c := by
      intro c hc
      rcases List.mem_append.mp hc with hc | hc
      · exact hcur c hc
      · simp only [List.mem_singleton] at hc
        subst hc
        exact has
    cases st with
    | startField =>
      simp only [parseRec] at h
      split_ifs at h
      · exact ih _ _ _ _ h hrest (fun c hc => absurd hc (List.not_mem_nil c))
          hfields
      · exact ih _ _ _ _ h hrest (fun c hc => absurd hc (List.not_mem_nil c))
          hpushe
      · exact ih _ _ _ _ h hrest (by
          intro c hc
          simp only [List.mem_singleton] at hc
          subst hc
          exact has) hfields
    | inField =>
      simp only [parseRec] at h
      split_ifs at h
      · exact ih _ _ _ _ h hrest (fun c hc => absurd hc (List.not_mem_nil c))
          hpush
      · exact ih _ _ _ _ h hrest hsnoc hfields
    | inQuotes =>
      simp only [parseRec] at h
      split_ifs at h
      · exact ih _ _ _ _ h hrest hcur hfields
      · exact ih _ _ _ _ h hrest hsnoc hfields
    | quoteInQuotes =>
      simp only [parseRec] at h
      split_ifs at h with hq
      · refine ih _ _ _ _ h hrest ?_ hfields
        intro c hc
        rcases List.mem_append.mp hc with hc | hc
        · exact hcur c hc
        · simp only [List.mem_singleton] at hc
          subst hc
          rw [← hq]
          exact has
      · exact ih _ _ _ _ h hrest (fun c hc => absurd hc (List.not_mem_nil c))
          hpush
      · exact ih _ _ _ _ h hrest hsnoc hfields

theorem parseRec_no_ten : ∀ (cs : List Nat) (st : PState) (cur : List Nat)
    (fields out : List (List Nat)), parseRec cs st cur fields = some out →
    10 ∉ cur → (∀ f ∈ fields, 10 ∉ f) → ∀ f ∈ out, 10 ∉ f := by
  intro cs
  induction cs with
  | nil =>
    intro st cur fields out h hcur hfields
    cases st <;>
      (simp only [parseRec, Option.some.injEq] at h
       subst h
       intro f hf
       rcases List.mem_append.mp hf with hf | hf
       · exact hfields f hf
       · simp only [List.mem_singleton] at hf
         subst hf
         first
           | exact List.not_mem_nil 10
           | exact hcur)
  | cons a rest ih =>
    intro st cur fields out h hcur hfields
    have hpush : ∀ g ∈ fields ++ [cur], 10 ∉ g := by
      intro g hg
      rcases List.mem_append.mp hg with hg | hg
      · exact hfields g hg
      · simp only [List.mem_singleton] at hg
        subst hg
        exact hcur
    have hpushe : ∀ g ∈ fields ++ [[]], 10 ∉ g := by
      intro g hg
      rcases List.mem_append.mp hg with hg | hg
      · exact hfields g hg
      · simp only [List.mem_singleton] at hg
        subst hg
        exact List.not_mem_nil 10
    cases st with
    | startField =>
      simp only [parseRec] at h
      split_ifs at h with hq hcomma hnl
      · exact ih _ _ _ _ h (List.not_mem_nil 10) hfields
      · exact ih _ _ _ _ h (List.not_mem_nil 10) hpushe
      · refine ih _ _ _ _ h ?_ hfields
        intro hc
        simp only [List.mem_singleton] at hc
        omega
    | inField =>
      simp only [parseRec] at h
      split_ifs at h with hcomma hnl
      · exact ih _ _ _ _ h (List.not_mem_nil 10) hpush
      · refine ih _ _ _ _ h ?_ hfields
        intro hc
        rcases List.mem_append.mp hc with hc | hc
        · exact hcur hc
        · simp only [List.mem_singleton] at hc
          omega
    | inQuotes =>
      simp only [parseRec] at h
      split_ifs at h with hq hnl
      · exact ih _ _ _ _ h hcur hfields
      · refine ih _ _ _ _ h ?_ hfields
        intro hc
        rcases List.mem_append.mp hc with hc | hc
        · exact hcur hc
        · simp only [List.mem_singleton] at hc
          omega
    | quoteInQuotes =>
      simp only [parseRec] at h
      split_ifs at h with hq hcomma hnl
      · refine ih _ _ _ _ h ?_ hfields
        intro hc
        rcases List.mem_append.mp hc with hc | hc
        · exact hcur hc
        · simp only [List.mem_singleton] at hc
          omega
      · exact ih _ _ _ _ h (List.not_mem_nil 10) hpush
      · refine ih _ _ _ _ h ?_ hfields
        intro hc
        rcases List.mem_append.mp hc with hc | hc
        · exact hcur hc
        · simp only [List.mem_singleton] at hc
          omega

/-! ### CSV parser: round trip with the writer -/

/-- Characters that end or quote an unquoted field. -/
def NoSpecial (f : List Nat) : Prop :=
  ∀ c ∈ f, c ≠ 44 ∧ c ≠ 34 ∧ c ≠ 13 ∧ c ≠ 10

theorem needsQuote_false_iff (f : Fld) :
    needsQuote f = false ↔ NoSpecial f := by
  unfold needsQuote NoSpecial
  rw [List.any_eq_false]
  constructor
  · intro h c hc
    have := h c hc
    simp only [Bool.or_eq_true, decide_eq_true_eq] at this
    push_neg at this
    omega
  · intro h c hc
    have := h c hc
    simp only [Bool.or_eq_true, decide_eq_true_eq]
    push_neg
    omega

theorem parseRec_quoted (f : List Nat) : ∀ (cur : List Nat)
    (fields : List (List Nat)) (rest : List Nat), 10 ∉ f →
    parseRec (escapeQuotes f ++ 34 :: rest) PState.inQuotes cur fields
      = parseRec rest PState.quoteInQuotes (cur ++ f) fields := by
  induction f with
  | nil =>
    intro cur fields rest _
    show parseRec (34 :: rest) PState.inQuotes cur fields = _
    simp [parseRec]
  | cons c f ih =>
    intro cur fields rest h10
    have hc10 : c ≠ 10 := by
      intro he
      exact h10 (he ▸ List.mem_cons_self _ _)
    have hf10 : 10 ∉ f := fun hc => h10 (List.mem_cons_of_mem _ hc)
    by_cases hq : c = 34
    · subst hq
      rw [show escapeQuotes (34 :: f) = 34 :: 34 :: escapeQuotes f from rfl]
      show parseRec (34 :: (34 :: (escapeQuotes f ++ 34 :: rest)))
        PState.inQuotes cur fields = _
      simp only [parseRec, if_pos rfl]
      rw [ih _ _ _ hf10, List.append_assoc]
      rfl
    · rw [show escapeQuotes (c :: f) = c :: escapeQuotes f by
        simp [escapeQuotes, hq]]
      show parseRec (c :: (escapeQuotes f ++ 34 :: rest))
        PState.inQuotes cur fields = _
      simp only [parseRec, if_neg hq, if_neg hc10]
      rw [ih _ _ _ hf10, List.append_assoc]
      rfl

theorem parseRec_unquoted_mid (f : List Nat) : ∀ (cur : List Nat)
    (fields : List (List Nat)) (rest : List Nat), NoSpecial f →
    parseRec (f ++ 44 :: rest) PState.inField cur fields
      = parseRec rest PState.startField [] (fields ++ [cur ++ f]) := by
  induction f with
  | nil =>
    intro cur fields rest _
    show parseRec (44 :: rest) PState.inField cur fields = _
    simp [parseRec]
  | cons c f ih =>
    intro cur fields rest hns
    obtain ⟨hc44, hc34, hc13, hc10⟩ := hns c (List.mem_cons_self _ _)
    have hf : NoSpecial f := fun x hx => hns x (List.mem_cons_of_mem _ hx)
    show parseRec (c :: (f ++ 44 :: rest)) PState.inField cur fields = _
    simp only [parseRec, if_neg hc44, if_neg (by omega : ¬(c = 13 ∨ c = 10))]
    rw [ih _ _ _ hf, List.append_assoc]
    rfl

theorem parseRec_unquoted_end (f : List Nat) : ∀ (cur : List Nat)
    (fields : List (List Nat)), NoSpecial f →
    parseRec f PState.inField cur fields = some (fields ++ [cur ++ f]) := by
  induction f with
  | nil =>
    intro cur fields _
    simp [parseRec]
  | cons c f ih =>
    intro cur fields hns
    obtain ⟨hc44, hc34, hc13, hc10⟩ := hns c (List.mem_cons_self _ _)
    have hf : NoSpecial f := fun x hx => hns x (List.mem_cons_of_mem _ hx)
    show parseRec (c :: f) PState.inField cur fields = _
    simp only [parseRec, if_neg hc44, if_neg (by omega : ¬(c = 13 ∨ c = 10))]
    rw [ih _ _ hf]
    simp

theorem parseRec_field_cont (f : Fld) (fields : List (List Nat))
    (rest : List Nat) (h10 : 10 ∉ f) :
    parseRec (quoteField f ++ 44 :: rest) PState.startField [] fields
      = parseRec rest PState.startField [] (fields ++ [f]) := by
  unfold quoteField
  cases hq : needsQuote f with
  | true =>
    rw [if_pos rfl]
    show parseRec (34 :: ((escapeQuotes f ++ [34]) ++ 44 :: rest))
      PState.startField [] fields = _
    simp only [parseRec, if_pos rfl]
    rw [List.append_assoc]
    show parseRec (escapeQuotes f ++ 34 :: (44 :: rest)) PState.inQuotes []
      fields = _
    rw [parseRec_quoted f [] fields _ h10]
    show parseRec (44 :: rest) PState.quoteInQuotes f fields = _
    simp only [parseRec, if_neg (by omega : ¬(44 : Nat) = 34), if_pos rfl,
      if_true]
  | false =>
    rw [if_neg (by simp)]
    have hns : NoSpecial f := (needsQuote_false_iff f).mp hq
    cases f with
    | nil =>
      show parseRec (44 :: rest) PState.startField [] fields = _
      simp only [parseRec, if_neg (by omega : ¬(44 : Nat) = 34), if_pos rfl,
        if_true]
    | cons c f2 =>
      obtain ⟨hc44, hc34, hc13, hc10⟩ := hns c (List.mem_cons_self _ _)
      have hf2 : NoSpecial f2 := fun x hx => hns x (List.mem_cons_of_mem _ hx)
      show parseRec (c :: (f2 ++ 44 :: rest)) PState.startField [] fields = _
      simp only [parseRec, if_neg hc34, if_neg hc44,
        if_neg (by omega : ¬(c = 13 ∨ c = 10))]
      rw [parseRec_unquoted_mid f2 [c] fields rest hf2]
      rfl

theorem parseRec_field_end (f : Fld) (fields : List (List Nat))
    (h10 : 10 ∉ f) :
    parseRec (quoteField f) PState.startField [] fields
      = some (fields ++ [f]) := by
  unfold quoteField
  cases hq : needsQuote f with
  | true =>
    rw [if_pos rfl]
    show parseRec (34 :: (escapeQuotes f ++ [34])) PState.startField [] fields
      = _
    simp only [parseRec, if_pos rfl]
    have h34 : (34 : Nat) :: ([] : List Nat) = 34 :: [] := rfl
    rw [show escapeQuotes f ++ [34] = escapeQuotes f ++ 34 :: [] from rfl,
      parseRec_quoted f [] fields [] h10]
    simp [parseRec]
  | false =>
    rw [if_neg (by simp)]
    have hns : NoSpecial f := (needsQuote_false_iff f).mp hq
    cases f with
    | nil => simp [parseRec]
    | cons c f2 =>
      obtain ⟨hc44, hc34, hc13, hc10⟩ := hns c (List.mem_cons_self _ _)
      have hf2 : NoSpecial f2 := fun x hx => hns x (List.mem_cons_of_mem _ hx)
      show parseRec (c :: f2) PState.startField [] fields = _
      simp only [parseRec, if_neg hc34, if_neg hc44,
        if_neg (by omega : ¬(c = 13 ∨ c = 10))]
      rw [parseRec_unquoted_end f2 [c] fields hf2]
      rfl

theorem parseRec_row (fs : List Fld) : ∀ (f : Fld) (fields : List (List Nat)),
    (∀ g ∈ f :: fs, 10 ∉ g) →
    parseRec (joinSep [44] ((f :: fs).map quoteField)) PState.startField []
      fields = some (fields ++ f :: fs) := by
  induction fs with
  | nil =>
    intro f fields h10
    show parseRec (quoteField f) PState.startField [] fields = _
    rw [parseRec_field_end f fields (h10 f (List.mem_cons_self _ _))]
  | cons f2 fs ih =>
    intro f fields h10
    show parseRec (quoteField f ++ [44] ++ joinSep [44]
      ((f2 :: fs).map quoteField)) PState.startField [] fields = _
    rw [List.append_assoc]
    show parseRec (quoteField f ++ 44 :: joinSep [44]
      ((f2 :: fs).map quoteField)) PState.startField [] fields = _
    rw [parseRec_field_cont f fields _ (h10 f (List.mem_cons_self _ _)),
      ih f2 (fields ++ [f]) (fun g hg => h10 g (List.mem_cons_of_mem _ hg))]
    simp

theorem dropTrailing_append_single (a : Nat) (x : List Nat) :
    dropTrailing a (x ++ [a]) = x := by
  unfold dropTrailing
  rw [List.reverse_append]
  simp

theorem stripEOL_crlf (x : List Nat) : stripEOL (x ++ [13, 10]) = x := by
  unfold stripEOL
  rw [show x ++ [13, 10] = (x ++ [13]) ++ [10] by simp,
    dropTrailing_append_single, dropTrailing_append_single]

theorem mem_dropTrailing (a c : Nat) (l : List Nat)
    (h : c ∈ dropTrailing a l) : c ∈ l := by
  unfold dropTrailing at h
  cases hrev : l.reverse with
  | nil => rw [hrev] at h; exact h
  | cons y r =>
    rw [hrev] at h
    change c ∈ if y = a then r.reverse else l at h
    split_ifs at h
    · have : c ∈ y :: r := List.mem_cons_of_mem _ (List.mem_reverse.mp h)
      rw [← hrev] at this
      exact List.mem_reverse.mp this
    · exact h

theorem mem_stripEOL (c : Nat) (l : List Nat) (h : c ∈ stripEOL l) : c ∈ l :=
  mem_dropTrailing 10 c l (mem_dropTrailing 13 c _ h)

theorem mem_escapeQuotes (c : Nat) (f : List Nat) (h : c ∈ escapeQuotes f) :
    c ∈ f := by
  induction f with
  | nil => exact absurd h (List.not_mem_nil c)
  | cons x f ih =>
    unfold escapeQuotes at h
    split_ifs at h with hx
    · subst hx
      simp only [List.mem_cons] at h
      rcases h with h | h | h
      · simp [h]
      · simp [h]
      · exact List.mem_cons_of_mem _ (ih h)
    · simp only [List.mem_cons] at h
      rcases h with h | h
      · simp [h]
      · exact List.mem_cons_of_mem _ (ih h)

theorem mem_quoteField (c : Nat) (f : Fld) (h : c ∈ quoteField f) :
    c = 34 ∨ c ∈ f := by
  unfold quoteField at h
  split_ifs at h
  · simp only [List.mem_cons, List.mem_append, List.not_mem_nil,
      or_false] at h
    rcases h with h | h | h
    · exact Or.inl h
    · exact Or.inr (mem_escapeQuotes c f h)
    · exact Or.inl h
  · exact Or.inr h

theorem mem_joinSep (sep : List Nat) (c : Nat) : ∀ (ps : List (List Nat)),
    c ∈ joinSep sep ps → c ∈ sep ∨ ∃ p ∈ ps, c ∈ p := by
  intro ps
  induction ps with
  | nil => intro h; exact absurd h (List.not_mem_nil c)
  | cons x ps ih =>
    intro h
    cases ps with
    | nil =>
      right
      exact ⟨x, List.mem_cons_self _ _, h⟩
    | cons y ps2 =>
      rw [show joinSep sep (x :: y :: ps2) = x ++ sep ++ joinSep sep (y :: ps2)
        from rfl] at h
      simp only [List.mem_append] at h
      rcases h with (h | h) | h
      · exact Or.inr ⟨x, List.mem_cons_self _ _, h⟩
      · exact Or.inl h
      · rcases ih h with h | ⟨p, hp, hcp⟩
        · exact Or.inl h
        · exact Or.inr ⟨p, List.mem_cons_of_mem _ hp, hcp⟩

theorem mem_serializeRow (r : Row) (c : Nat) (h : c ∈ serializeRow r) :
    c = 34 ∨ c = 44 ∨ ∃ f ∈ r, c ∈ f := by
  unfold serializeRow at h
  split_ifs at h
  · simp at h
    exact Or.inl h
  · rcases mem_joinSep [44] c _ h with h | ⟨p, hp, hcp⟩
    · simp only [List.mem_singleton] at h
      exact Or.inr (Or.inl h)
    · obtain ⟨f, hf, rfl⟩ := List.mem_map.mp hp
      rcases mem_quoteField c f hcp with h | h
      · exact Or.inl h
      · exact Or.inr (Or.inr ⟨f, hf, h⟩)

theorem serializeRow_no_ten (r : Row) (h10 : ∀ f ∈ r, 10 ∉ f) :
    10 ∉ serializeRow r := by
  intro h
  rcases mem_serializeRow r 10 h with h | h | ⟨f, hf, hc⟩
  · omega
  · omega
  · exact h10 f hf hc

theorem parseCSVLine_serializeRow (r : Row) (h10 : ∀ f ∈ r, 10 ∉ f) :
    parseCSVLine (serializeRow r ++ [13, 10]) = some r := by
  unfold parseCSVLine
  rw [stripEOL_crlf]
  by_cases hr0 : r = []
  · subst hr0
    rfl
  · by_cases hr1 : r = [[]]
    · subst hr1
      rfl
    · cases r with
      | nil => exact absurd rfl hr0
      | cons f fs =>
        rw [show serializeRow (f :: fs)
            = joinSep [44] ((f :: fs).map quoteField) by
          unfold serializeRow
          rw [if_neg hr1]]
        have hrow := parseRec_row fs f [] h10
        cases hb : joinSep [44] ((f :: fs).map quoteField) with
        | nil =>
          exfalso
          rw [hb] at hrow
          have heq : parseRec ([] : List Nat) PState.startField [] []
              = some [[]] := rfl
          rw [heq] at hrow
          simp only [List.nil_append, Option.some.injEq] at hrow
          exact hr1 hrow.symm
        | cons c rest =>
          rw [hb] at hrow
          show parseRec (c :: rest) PState.startField [] [] = some (f :: fs)
          rw [hrow]
          simp

/-- The invariants of every record produced by reading a sanitized line:
fields contain no NUL, only scalar values, and no LF. -/
def RowOk (r : Row) : Prop :=
  ∀ f ∈ r, (∀ c ∈ f, c ≠ 0 ∧ ValidCp c) ∧ 10 ∉ f

theorem readLine_serializeLine (r : Row) (hok : RowOk r) :
    readLine (serializeLine r) = some r := by
  have hcv : ∀ c ∈ serializeRow r ++ [13, 10], ValidCp c := by
    intro c hc
    rcases List.mem_append.mp hc with hc | hc
    · rcases mem_serializeRow r c hc with rfl | rfl | ⟨f, hf, hcf⟩
      · exact Or.inl (by omega)
      · exact Or.inl (by omega)
      · exact ((hok f hf).1 c hcf).2
    · simp only [List.mem_cons, List.not_mem_nil, or_false] at hc
      rcases hc with rfl | rfl
      · exact Or.inl (by omega)
      · exact Or.inl (by omega)
  have hc0 : ∀ b ∈ utf8Encode (serializeRow r ++ [13, 10]), b ≠ 0 := by
    intro b hb
    obtain ⟨c, hcmem, hbc⟩ := mem_utf8Encode b _ hb
    rcases mem_utf8EncodeCp b c hbc with rfl | hge
    · rcases List.mem_append.mp hcmem with hc | hc
      · rcases mem_serializeRow r b hc with rfl | rfl | ⟨f, hf, hcf⟩
        · omega
        · omega
        · exact ((hok f hf).1 b hcf).1
      · simp only [List.mem_cons, List.not_mem_nil, or_false] at hc
        omega
    · omega
  unfold readLine serializeLine
  rw [show stripNul (utf8Encode (serializeRow r ++ [13, 10]))
      = utf8Encode (serializeRow r ++ [13, 10]) from
    List.filter_eq_self.mpr (fun b hb => by simp [hc0 b hb])]
  rw [utf8Decode_encode_closed _ hcv]
  show parseCSVLine (serializeRow r ++ [13, 10]) = some r
  exact parseCSVLine_serializeRow r (fun f hf => (hok f hf).2)

theorem readAll_serialized (rows : List Row) (hp : ∀ r ∈ rows, RowOk r) :
    readAll (rows.map serializeLine) = some rows := by
  induction rows with
  | nil => rfl
  | cons r rows ih =>
    show readAll (serializeLine r :: rows.map serializeLine) = _
    unfold readAll
    rw [readLine_serializeLine r (hp r (List.mem_cons_self _ _)),
      ih (fun x hx => hp x (List.mem_cons_of_mem _ hx))]

theorem readLine_props (l : List Nat) (r : Row) (h : readLine l = some r) :
    RowOk r := by
  unfold readLine at h
  cases hd : utf8Decode (stripNul l) with
  | none => rw [hd] at h; exact absurd h (by simp)
  | some cps =>
    rw [hd] at h
    change parseCSVLine cps = some r at h
    have hcps0 : ∀ c ∈ cps, c ≠ 0 := by
      refine utf8Decode_no_zero _ _ hd ?_
      intro hmem
      have := (List.mem_filter.mp hmem).2
      simp at this
    have hcpsv : ∀ c ∈ cps, ValidCp c := utf8Decode_valid _ _ hd
    unfold parseCSVLine at h
    cases hb : stripEOL cps with
    | nil =>
      rw [hb] at h
      change some [] = some r at h
      simp only [Option.some.injEq] at h
      subst h
      intro f hf
      exact absurd hf (List.not_mem_nil f)
    | cons c rest =>
      rw [hb] at h
      change parseRec (c :: rest) PState.startField [] [] = some r at h
      have hbody : ∀ x ∈ c :: rest, x ≠ 0 ∧ ValidCp x := by
        intro x hx
        have hxc : x ∈ cps := mem_stripEOL x cps (by rw [hb]; exact hx)
        exact ⟨hcps0 x hxc, hcpsv x hxc⟩
      intro f hf
      constructor
      · intro cc hcc
        exact parseRec_preserves (fun x => x ≠ 0 ∧ ValidCp x) _ _ _ _ _ h hbody
          (fun x hx => absurd hx (List.not_mem_nil x))
          (fun g hg cc2 hcc2 => absurd hg (List.not_mem_nil g)) f hf cc hcc
      · exact parseRec_no_ten _ _ _ _ _ h (List.not_mem_nil 10)
          (fun g hg => absurd hg (List.not_mem_nil g)) f hf

theorem readAll_props : ∀ (ls : List (List Nat)) (rows : List Row),
    readAll ls = some rows → ∀ r ∈ rows, RowOk r := by
  intro ls
  induction ls with
  | nil =>
    intro rows h r hr
    change some [] = some rows at h
    simp only [Option.some.injEq] at h
    subst h
    exact absurd hr (List.not_mem_nil r)
  | cons l ls ih =>
    intro rows h r hr
    unfold readAll at h
    cases h1 : readLine l with
    | none => rw [h1] at h; exact absurd h (by simp)
    | some r1 =>
      cases h2 : readAll ls with
      | none =>
        rw [h1, h2] at h
        exact absurd h (by simp)
      | some rs =>
        rw [h1, h2] at h
        change some (r1 :: rs) = some rows at h
        simp only [Option.some.injEq] at h
        subst h
        rcases List.mem_cons.mp hr with rfl | hr2
        · exact readLine_props l r h1
        · exact ih rs h2 r hr2

theorem readRecords_props (bs : List Nat) (rows : List Row)
    (h : readRecords bs = some rows) : ∀ r ∈ rows, RowOk r :=
  readAll_props (splitAfter bs) rows h

/-! ### File-level round trip of the sanitizer -/

theorem splitAfter_cons (b : Nat) (rest : List Nat) :
    splitAfter (b :: rest)
      = if b = 10 then [b] :: splitAfter rest
        else
          match splitAfter rest with
          | [] => [[b]]
          | l :: ls => (b :: l) :: ls := rfl

theorem splitAfter_chunk (body : List Nat) : ∀ (rest : List Nat), 10 ∉ body →
    splitAfter (body ++ 10 :: rest) = (body ++ [10]) :: splitAfter rest := by
  induction body with
  | nil =>
    intro rest _
    show splitAfter (10 :: rest) = _
    rw [splitAfter_cons, if_pos rfl]
    rfl
  | cons b body ih =>
    intro rest h10
    have hb : b ≠ 10 := fun he => h10 (he ▸ List.mem_cons_self _ _)
    show splitAfter (b :: (body ++ 10 :: rest)) = _
    rw [splitAfter_cons, if_neg hb, ih rest
      (fun hc => h10 (List.mem_cons_of_mem _ hc))]
    rfl

theorem serializeLine_eq (r : Row) :
    serializeLine r = utf8Encode (serializeRow r ++ [13]) ++ [10] := by
  unfold serializeLine
  rw [show serializeRow r ++ [13, 10] = (serializeRow r ++ [13]) ++ [10]
    by simp, utf8Encode_append]
  rfl

theorem no_ten_encode_part (r : Row) (h10 : ∀ f ∈ r, 10 ∉ f) :
    10 ∉ utf8Encode (serializeRow r ++ [13]) := by
  intro hb
  obtain ⟨c, hcmem, hbc⟩ := mem_utf8Encode 10 _ hb
  rcases mem_utf8EncodeCp 10 c hbc with heq | hge
  · rcases List.mem_append.mp hcmem with hc | hc
    · rw [← heq] at hc
      exact serializeRow_no_ten r h10 hc
    · simp only [List.mem_singleton] at hc
      omega
  · omega

theorem splitAfter_serialized (rows : List Row)
    (hp : ∀ r ∈ rows, ∀ f ∈ r, 10 ∉ f) :
    splitAfter ((rows.map serializeLine).flatten) = rows.map serializeLine := by
  induction rows with
  | nil => rfl
  | cons r rows ih =>
    show splitAfter (serializeLine r ++ (rows.map serializeLine).flatten) = _
    rw [serializeLine_eq r, List.append_assoc]
    show splitAfter (utf8Encode (serializeRow r ++ [13])
      ++ 10 :: (rows.map serializeLine).flatten) = _
    rw [splitAfter_chunk _ _ (no_ten_encode_part r (hp r (List.mem_cons_self _ _))),
      ih (fun x hx => hp x (List.mem_cons_of_mem _ hx))]
    rw [← serializeLine_eq r]
    rfl

theorem sanitizeBytes_inv (bs g : List Nat) (h : sanitizeBytes bs = some g) :
    ∃ rows, readRecords bs = some rows
      ∧ g = (rows.map serializeLine).flatten := by
  unfold sanitizeBytes at h
  cases hr : readRecords bs with
  | none => rw [hr] at h; exact absurd h (by simp)
  | some rows =>
    rw [hr] at h
    change some _ = some g at h
    simp only [Option.some.injEq] at h
    exact ⟨rows, rfl, h.symm⟩

theorem readRecords_sanitized (rows : List Row) (hp : ∀ r ∈ rows, RowOk r) :
    readRecords ((rows.map serializeLine).flatten) = some rows := by
  unfold readRecords
  rw [splitAfter_serialized rows (fun r hr => (fun f hf => (hp r hr f hf).2))]
  exact readAll_serialized rows hp

theorem serializeLine_no_zero (r : Row) (hok : RowOk r) :
    ∀ b ∈ serializeLine r, b ≠ 0 := by
  intro b hb
  unfold serializeLine at hb
  obtain ⟨c, hcmem, hbc⟩ := mem_utf8Encode b _ hb
  rcases mem_utf8EncodeCp b c hbc with rfl | hge
  · rcases List.mem_append.mp hcmem with hc | hc
    · rcases mem_serializeRow r b hc with rfl | rfl | ⟨f, hf, hcf⟩
      · omega
      · omega
      · exact ((hok f hf).1 b hcf).1
    · simp only [List.mem_cons, List.not_mem_nil, or_false] at hc
      omega
  · omega

/-! ### Claim C4 -/

/-- Claim C4, counterexample: the file `a,b` terminated by a bare LF
contains no NUL byte, yet a single sanitization pass rewrites it: the
`csv.writer` re-serialization terminates the line with CRLF, so the
output is not byte-identical to the clean input. -/
theorem c4_counterexample :
    (0 : Nat) ∉ [97, 44, 98, 10]
    ∧ sanitizeBytes [97, 44, 98, 10] = some [97, 44, 98, 13, 10]
    ∧ [97, 44, 98, 13, 10] ≠ [97, 44, 98, 10] := by
  decide

/-- Claim C4, amended: sanitization is idempotent in the run-twice sense:
a second sanitization pass over any successful first pass's output
reproduces that output byte for byte (a single pass over a clean file may
still normalize line endings and quoting). -/
theorem c4_amended (bs g : List Nat) (h : sanitizeBytes bs = some g) :
    sanitizeBytes g = some g := by
  obtain ⟨rows, hread, rfl⟩ := sanitizeBytes_inv bs g h
  have hp := readRecords_props bs rows hread
  have hre := readRecords_sanitized rows hp
  unfold sanitizeBytes
  rw [hre]

/-- Witness for C4 (amended): re-sanitizing the output for `a,b` is a
no-op. -/
theorem c4_witness :
    sanitizeBytes [97, 44, 98, 13, 10] = some [97, 44, 98, 13, 10] :=
  c4_amended [97, 44, 98, 10] [97, 44, 98, 13, 10] (by decide)

/-! ### Claim C5 -/

/-- Claim C5, counterexample: sanitizing the NUL-free file `a,b` with a
bare LF produces a byte (CR, 13) that the input never contained, so the
decoded content is not a pure subtraction of NUL bytes. -/
theorem c5_counterexample :
    sanitizeBytes [97, 44, 98, 10] = some [97, 44, 98, 13, 10]
    ∧ (13 : Nat) ∉ [97, 44, 98, 10]
    ∧ (13 : Nat) ∈ [97, 44, 98, 13, 10] := by
  decide

/-- Claim C5, amended: after sanitization no byte of the file is NUL, and
the parsed record content is exactly the record content of the input
after per-line NUL stripping, in the same order; only the CSV
serialization (line endings, quoting) may differ. -/
theorem c5_amended (bs g : List Nat) (h : sanitizeBytes bs = some g) :
    (∀ b ∈ g, b ≠ 0) ∧ readRecords g = readRecords bs := by
  obtain ⟨rows, hread, rfl⟩ := sanitizeBytes_inv bs g h
  have hp := readRecords_props bs rows hread
  constructor
  · intro b hb
    rw [List.mem_flatten] at hb
    obtain ⟨l, hl, hbl⟩ := hb
    obtain ⟨r, hr, rfl⟩ := List.mem_map.mp hl
    exact serializeLine_no_zero r (hp r hr) b hbl
  · rw [readRecords_sanitized rows hp, hread]

/-- Witness for C5 (amended): the sanitized `a,b` file has no NUL byte
and the same records as its input. -/
theorem c5_witness :
    (∀ b ∈ [97, 44, 98, 13, 10], b ≠ (0 : Nat))
    ∧ readRecords [97, 44, 98, 13, 10] = readRecords [97, 44, 98, 10] :=
  c5_amended [97, 44, 98, 10] [97, 44, 98, 13, 10] (by decide)

/-! ### Claim C6 -/

/-- Claim C6, counterexample: the file `\xFF` fails UTF-8 decoding; the
`preprocess` loop has no per-file exception handling, so the batch stops
at index 0 and the following file `a,b` — which would have been
processed to a different content — is left untouched. -/
theorem c6_counterexample :
    preprocessFileBytes [255] = none
    ∧ preprocessAll [[255], [97, 44, 98, 10]]
        = ([[255], [97, 44, 98, 10]], some 0)
    ∧ preprocessFileBytes [97, 44, 98, 10] = some ([97, 44, 98, 13, 10], [])
    ∧ [97, 44, 98, 13, 10] ≠ [97, 44, 98, 10] := by
  decide

/-- Claim C6, amended: failures are not isolated per file.  A decode
error aborts the whole `preprocess` loop: files before the failing one
are processed, and the failing file together with every file after it is
left unprocessed; the exception propagates to the caller. -/
theorem c6_amended (pre : List (List Nat)) (f : List Nat)
    (post : List (List Nat))
    (h1 : ∀ g ∈ pre, preprocessFileBytes g ≠ none)
    (h2 : preprocessFileBytes f = none) :
    preprocessAll (pre ++ f :: post)
      = (pre.map outFile ++ f :: post, some pre.length) := by
  induction pre with
  | nil =>
    show preprocessAll (f :: post) = _
    unfold preprocessAll
    rw [h2]
    rfl
  | cons p pre ih =>
    show preprocessAll (p :: (pre ++ f :: post)) = _
    unfold preprocessAll
    cases hp : preprocessFileBytes p with
    | none => exact absurd hp (h1 p (List.mem_cons_self _ _))
    | some r =>
      rw [ih (fun g hg => h1 g (List.mem_cons_of_mem _ hg))]
      show (r.1 :: (List.map outFile pre ++ f :: post),
          Option.map (fun x => x + 1) (some pre.length))
        = (List.map outFile (p :: pre) ++ f :: post, some (p :: pre).length)
      rw [List.map_cons, show outFile p = r.1 by unfold outFile; rw [hp]]
      simp

/-- Witness for C6 (amended): with a good file before and after the
undecodable `\xFF`, the batch stops right at the bad file. -/
theorem c6_witness :
    preprocessAll ([[97, 44, 98, 10]] ++ [255] :: [[99, 10]])
      = ([[97, 44, 98, 10]].map outFile ++ [255] :: [[99, 10]],
         some ([[97, 44, 98, 10]] : List (List Nat)).length) :=
  c6_amended [[97, 44, 98, 10]] [255] [[99, 10]]
    (by decide) (by decide)

/-! ### Claim C7 -/

/-- Claim C7, counterexample: a file holding only the header `a,b` and a
bare LF is rewritten by preprocessing — the output ends in CRLF — so the
output file is not byte-identical to the input, though it holds the same
single record and no log entry is emitted. -/
theorem c7_counterexample :
    readRecords [97, 44, 98, 10] = some [[[97], [98]]]
    ∧ preprocessFileBytes [97, 44, 98, 10] = some ([97, 44, 98, 13, 10], [])
    ∧ [97, 44, 98, 13, 10] ≠ [97, 44, 98, 10] := by
  decide

/-- Claim C7, amended: a file whose records are just one header row
preprocesses successfully to the single serialized header line — the
same record in writer-normal form (byte-identical only if the input was
already in that form) — and emits zero log entries. -/
theorem c7_amended (bs : List Nat) (header : Row)
    (h : readRecords bs = some [header]) :
    preprocessFileBytes bs = some (serializeLine header, [])
    ∧ splitAfter (serializeLine header) = [serializeLine header]
    ∧ readRecords (serializeLine header) = some [header] := by
  have hp := readRecords_props bs [header] h
  have hok : RowOk header := hp header (List.mem_cons_self _ _)
  have hsan : sanitizeBytes bs = some (serializeLine header) := by
    unfold sanitizeBytes
    rw [h]
    show some (([header].map serializeLine).flatten) = _
    simp
  have hre : readRecords (serializeLine header) = some [header] := by
    have h2 := readRecords_sanitized [header] hp
    simpa using h2
  refine ⟨?_, ?_, hre⟩
  · unfold preprocessFileBytes
    rw [hsan, Option.some_bind, hre, Option.some_bind]
    rfl
  · have h2 := splitAfter_serialized [header]
      (by
        intro r hr f hf
        rcases List.mem_cons.mp hr with rfl | hr2
        · exact (hok f hf).2
        · exact absurd hr2 (List.not_mem_nil r))
    simpa using h2

/-- Witness for C7 (amended): the header-only file `a,b`. -/
theorem c7_witness :
    preprocessFileBytes [97, 44, 98, 10]
        = some (serializeLine [[97], [98]], [])
    ∧ splitAfter (serializeLine [[97], [98]]) = [serializeLine [[97], [98]]]
    ∧ readRecords (serializeLine [[97], [98]]) = some [[[97], [98]]] :=
  c7_amended [97, 44, 98, 10] [[97], [98]] (by decide)

end CsvPipe
